import Mathlib

/-!
A shallow embedding of `src/Vfs.js`: a virtual filesystem overlaying an
in-memory tree of nodes with subtrees mirrored onto real directory handles.

Modelling conventions:
* JS objects holding nodes are represented by an arena: a list of `VfsNode`
  records indexed by `Nat`; a JS object reference becomes an arena index.
* JS plain objects used as dictionaries (`metadata`, `_children`) become
  insertion-ordered association lists; property read is first-match lookup,
  property write (`obj[k] = v` and `Object.assign`) updates the existing
  entry in place or appends a fresh one.
* JS string operations (`split`, `startsWith`, `slice`) are modelled on the
  character sequence `String.data`.
* The opaque capabilities (directory handles, blobs) become `Nat` tags and
  a record of name/content strings; the external storage provider
  (`getDirectoryHandle`) is an oracle function `Nat -> String -> Nat`, and
  every call issued to it is recorded in an `FsCall` trace.
* A JS function that can return a node, `null`, `undefined` or `false` has
  result type `JsRet`.
-/

namespace VfsModel

/-- Indexed lookup in a list, mirroring array/arena access. -/
def getIdx {α : Type} : List α → Nat → Option α
  | [], _ => none
  | a :: _, 0 => some a
  | _ :: l, n + 1 => getIdx l n

/-- Indexed update in a list (out-of-range indices leave the list unchanged). -/
def setIdx {α : Type} : List α → Nat → α → List α
  | [], _, _ => []
  | _ :: l, 0, b => b :: l
  | a :: l, n + 1, b => a :: setIdx l n b

/-- First-match lookup in an association list, mirroring JS property read. -/
def alLookup {β : Type} (k : String) : List (String × β) → Option β
  | [] => none
  | (a, v) :: l => if a = k then some v else alLookup k l

/-- Values that can sit in a node's metadata object. -/
inductive MetaVal where
  | vnat (n : Nat)
  | vstr (s : String)
  | vblob (name content ctype : String)
  | vhandle (h : Nat)
deriving DecidableEq

/-- A JS metadata object: insertion-ordered key/value pairs. -/
abbrev Metadata := List (String × MetaVal)

/-- JS property write `md[k] = v`: replace in place, or append when absent. -/
def setKey (md : Metadata) (k : String) (v : MetaVal) : Metadata :=
  if (alLookup k md).isSome then
    md.map (fun p => if p.1 = k then (k, v) else p)
  else md ++ [(k, v)]

/-- JS `Object.assign(md, src)`: fold the source's pairs into the target. -/
def objAssign (md : Metadata) (src : Metadata) : Metadata :=
  src.foldl (fun acc p => setKey acc p.1 p.2) md

/-- A vertex of the namespace tree (JS class `VfsNode`).  `children` is the
ordered own-property map `_children`, child references being arena indices. -/
structure VfsNode where
  name : String
  metadata : Metadata
  parent : Option Nat
  children : List (String × Nat)
deriving DecidableEq

/-- A mount-table record `{type, path, root}`.  `mtype` renders the JS field
`type` (a Lean keyword); `root` is an arena index, `none` when the JS code
would store `undefined`. -/
structure MountPoint where
  mtype : String
  path : String
  root : Option Nat
deriving DecidableEq

/-- The whole `Vfs` instance: id counter, node arena (the root is index 0),
and the append-only mount table. -/
structure Vfs where
  node_id : Nat
  nodes : List VfsNode
  mount_points : List MountPoint
deriving DecidableEq

/-- The JS constructor: a root node named `""` with metadata `{id: 0}`. -/
def initVfs : Vfs :=
  { node_id := 1
  , nodes := [{ name := "", metadata := [("id", MetaVal.vnat 0)], parent := none, children := [] }]
  , mount_points := [] }

/-- A call issued to the external storage provider. -/
inductive FsCall where
  | getDirectoryHandle (parentHandle : Nat) (name : String) (create : Bool)
  | writeContent (parentHandle : Nat) (name : String) (content : String)
deriving DecidableEq

/-- Result of a JS method: a node reference, `null`, `undefined` or `false`. -/
inductive JsRet where
  | node (i : Nat)
  | nullv
  | undef
  | falsev
deriving DecidableEq

/-- Splitting a character sequence at every slash (JS `path.split("/")`). -/
def splitSlashAux : List Char → List (List Char)
  | [] => [[]]
  | c :: cs =>
    match splitSlashAux cs with
    | [] => [[]]
    | seg :: rest => if c = '/' then [] :: seg :: rest else (c :: seg) :: rest

/-- JS `normalize_path`: split on `/` and drop empty segments.  (The JS
function passes arrays through unchanged; callers holding segment lists
simply skip normalization here.) -/
def normalize_path (s : String) : List String :=
  ((splitSlashAux s.data).filter (fun l => l.length > 0)).map (fun l => { data := l })

/-- Read a node from the arena. -/
def getNode? (v : Vfs) (i : Nat) : Option VfsNode :=
  getIdx v.nodes i

/-- Replace a node in the arena by a modified copy (mutation of the JS
object referenced by index `i`). -/
def modifyNode (v : Vfs) (i : Nat) (f : VfsNode → VfsNode) : Vfs :=
  match getIdx v.nodes i with
  | some n => { v with nodes := setIdx v.nodes i (f n) }
  | none => v

/-- The child of node `i` named `name` (JS `cnode._children[name]`). -/
def childOf (v : Vfs) (i : Nat) (name : String) : Option Nat :=
  match getNode? v i with
  | some n => alLookup name n.children
  | none => none

/-- The node object allocated by one creation step of JS `_push`:
`new VfsNode(segment, {id: this.node_id++, type: "folder"})` with its
parent back-reference set to `c`. -/
def freshNode (v : Vfs) (c : Nat) (seg : String) : VfsNode :=
  { name := seg
  , metadata := [("id", MetaVal.vnat v.node_id), ("type", MetaVal.vstr "folder")]
  , parent := some c
  , children := [] }

/-- One creation step of JS `_push`: allocate the fresh folder node (its
arena index is the old arena size) and record it in the parent's child map. -/
def pushStep (v : Vfs) (c : Nat) (seg : String) : Vfs :=
  let v1 : Vfs := { v with nodes := v.nodes ++ [freshNode v c seg], node_id := v.node_id + 1 }
  modifyNode v1 c (fun n => { n with children := n.children ++ [(seg, v.nodes.length)] })

/-- The walking loop of JS `_push`: descend segment by segment from `c`,
creating a fresh folder node wherever a segment is missing.  Returns the
updated state and the terminal node's index. -/
def pushWalk (v : Vfs) (c : Nat) : List String → Vfs × Nat
  | [] => (v, c)
  | seg :: rest =>
    match childOf v c seg with
    | some j => pushWalk v j rest
    | none => pushWalk (pushStep v c seg) v.nodes.length rest

/-- JS `_push(mount, segments, metadata)`: walk/create, then merge
`Object.assign(cnode.metadata, {type: "file"}, metadata)` at the terminal. -/
def _push (v : Vfs) (mount : Nat) (segs : List String) (md : Metadata) : Vfs × Nat :=
  let vt := pushWalk v mount segs
  (modifyNode vt.1 vt.2
    (fun n => { n with metadata := objAssign (objAssign n.metadata [("type", MetaVal.vstr "file")]) md })
  , vt.2)

/-- The walking loop of JS `_open`: descend without creating; `none` the
instant a segment is missing. -/
def openWalk (v : Vfs) (c : Nat) : List String → Option Nat
  | [] => some c
  | seg :: rest =>
    match childOf v c seg with
    | some j => openWalk v j rest
    | none => none

/-- JS `_open(mount, segments)`.  The start is an `Option` index because the
mount table can hold an `undefined` root; walking from it yields no node. -/
def _open (v : Vfs) (mount : Option Nat) (segs : List String) : Option Nat :=
  match mount with
  | some c => openWalk v c segs
  | none => none

/-- JS `open(segments)`: resolve from the tree root (arena index 0). -/
def openPath (v : Vfs) (path : String) : Option Nat :=
  _open v (some 0) (normalize_path path)

/-- Whether a string is a canonical JS array-index key: a digit sequence with
no leading zero (other than `"0"` itself) whose value is below 2^32 - 1.
Such own-property keys are enumerated first, in ascending numeric order. -/
def isArrayIndexKey (s : String) : Bool :=
  match s.data with
  | [] => false
  | c :: cs =>
    (c :: cs).all (fun d => '0' ≤ d && d ≤ '9') &&
    (c != '0' || cs.isEmpty) &&
    (c :: cs).foldl (fun a d => a * 10 + (d.toNat - 48)) 0 < 4294967295

/-- Numeric value of a digit key (used only for ordering index keys). -/
def keyVal (s : String) : Nat :=
  s.data.foldl (fun a d => a * 10 + (d.toNat - 48)) 0

/-- Insert a key into a numerically ascending list of index keys. -/
def insertSorted (x : String) : List String → List String
  | [] => [x]
  | y :: ys => if keyVal x ≤ keyVal y then x :: y :: ys else y :: insertSorted x ys

/-- Sort index keys in ascending numeric order. -/
def sortIndexKeys (l : List String) : List String :=
  l.foldr insertSorted []

/-- JS `Object.getOwnPropertyNames` on the `_children` object: array-index
keys first in ascending numeric order, then the rest in insertion order. -/
def jsKeys (children : List (String × Nat)) : List String :=
  let ks := children.map Prod.fst
  sortIndexKeys (ks.filter (fun s => isArrayIndexKey s)) ++
    ks.filter (fun s => !isArrayIndexKey s)

/-- The generator `children()`: yield `_children[name]` for each own key. -/
def childrenList (v : Vfs) (i : Nat) : List VfsNode :=
  match getNode? v i with
  | some n => (jsKeys n.children).filterMap (fun k => (alLookup k n.children).bind (getNode? v))
  | none => []

/-- JS `ls(segments)`: `null` when the path does not resolve, else the
names of the resolved node's children in enumeration order. -/
def ls (v : Vfs) (path : String) : Option (List String) :=
  (openPath v path).map (fun i => (childrenList v i).map (fun n => n.name))

/-- The scan loop of JS `get_mount`: first mount point whose `path` is a
raw string prefix of the query wins; the query keeps the stripped suffix
(`path.slice(mount_point.path.length)`). -/
def get_mount_scan (path : String) : List MountPoint → Option MountPoint × String
  | [] => (none, path)
  | mp :: rest =>
    if mp.path.data.isPrefixOf path.data then
      (some mp, { data := path.data.drop mp.path.data.length })
    else get_mount_scan path rest

/-- JS `get_mount(path)`. -/
def get_mount (v : Vfs) (path : String) : Option MountPoint × String :=
  get_mount_scan path v.mount_points

/-- JS `_mkdir_memfs(root, path)`. -/
def _mkdir_memfs (v : Vfs) (root : Nat) (path : String) : Vfs × Nat :=
  _push v root (normalize_path path) [("type", MetaVal.vstr "folder")]

/-- JS `_write_file_memfs(root, path, blob)`. -/
def _write_file_memfs (v : Vfs) (root : Nat) (path : String) (blob : MetaVal) : Vfs × Nat :=
  _push v root (normalize_path path) [("type", MetaVal.vstr "file"), ("blob", blob)]

/-- The directory handle carried by node `i`, when present.  Handles are
opaque objects in JS, hence always truthy when the key is set. -/
def getHandleAt (v : Vfs) (i : Nat) : Option Nat :=
  match getNode? v i with
  | some n =>
    match alLookup "directoryHandle" n.metadata with
    | some (MetaVal.vhandle h) => some h
    | _ => none
  | none => none

/-- The search loop of JS `_closest_directory_handler_local`, recast on the
number `n` of leading segments still under consideration: the JS loop pops
segments off the end of the array (accumulating them in `to_create`, later
reversed), which is exactly examining `segs.take n` for descending `n` and
returning `segs.drop n` as the creation list. -/
def closestAux (v : Vfs) (mount : Option Nat) (segs : List String) : Nat → Option (Nat × Nat × List String)
  | 0 =>
    match _open v mount [] with
    | some i =>
      match getHandleAt v i with
      | some h => some (h, i, segs)
      | none => none
    | none => none
  | n + 1 =>
    match _open v mount (segs.take (n + 1)) with
    | some i =>
      match getHandleAt v i with
      | some h => some (h, i, segs.drop (n + 1))
      | none => closestAux v mount segs n
    | none => closestAux v mount segs n

/-- JS `_closest_directory_handler_local(mount, path)`: deepest prefix of
the path whose node carries a directory handle, together with that handle
and the remaining segments (shallowest first). -/
def _closest_directory_handler_local (v : Vfs) (mount : Option Nat) (path : String) :
    Option (Nat × Nat × List String) :=
  let segs := normalize_path path
  closestAux v mount segs segs.length

/-- The handle-creation loop of JS `_mkdir_local`: for each missing segment
ask the provider for a child handle (`{create: true}`), attach it to the
corresponding tree node and advance both cursors.  The JS code would crash
on a missing child (unreachable after the preceding `_push`); that corner
is modelled as an `undef` result. -/
def attachLoop (env : Nat → String → Nat) (v : Vfs) (handler : Nat) (node : Nat) :
    List String → JsRet × Vfs × List FsCall
  | [] => (JsRet.node node, v, [])
  | p :: ps =>
    let nh := env handler p
    match childOf v node p with
    | some j =>
      let v1 := modifyNode v j (fun n => { n with metadata := setKey n.metadata "directoryHandle" (MetaVal.vhandle nh) })
      let rvt := attachLoop env v1 nh j ps
      (rvt.1, rvt.2.1, FsCall.getDirectoryHandle handler p true :: rvt.2.2)
    | none => (JsRet.undef, v, [FsCall.getDirectoryHandle handler p true])

/-- JS `_mkdir_local(mount, path)`. -/
def _mkdir_local (env : Nat → String → Nat) (v : Vfs) (mount : MountPoint) (path : String) :
    JsRet × Vfs × List FsCall :=
  match _closest_directory_handler_local v mount.root path with
  | none => (JsRet.nullv, v, [])
  | some (handler, node, rest) =>
    attachLoop env (_push v node rest [("type", MetaVal.vstr "folder")]).1 handler node rest

/-- JS `_write_file_local(mount, path, blob)`: same closest-handle search,
then a tree-only push typed `file`; the blob is dropped, no provider call
is made, and the function falls off its end (returns `undefined`). -/
def _write_file_local (v : Vfs) (mount : MountPoint) (path : String) (blob : MetaVal) :
    JsRet × Vfs × List FsCall :=
  match _closest_directory_handler_local v mount.root path with
  | none => (JsRet.nullv, v, [])
  | some (_, node, rest) =>
    (JsRet.undef, (_push v node rest [("type", MetaVal.vstr "file")]).1, [])

/-- JS `mkdir(path)`: dispatch on the mount table.  A mount of a type other
than `"local"` falls through (returns `undefined`). -/
def mkdir (env : Nat → String → Nat) (v : Vfs) (path : String) : JsRet × Vfs × List FsCall :=
  match get_mount v path with
  | (none, rest) =>
    let vi := _mkdir_memfs v 0 rest
    (JsRet.node vi.2, vi.1, [])
  | (some mp, rest) =>
    if mp.mtype = "local" then _mkdir_local env v mp rest else (JsRet.undef, v, [])

/-- The blob's content type: JS `metadata || "plain/text"` picks the
default when the hint is absent (`undefined`) or the empty string (falsy). -/
def ctypeOf (hint : Option String) : String :=
  match hint with
  | some s => if s = "" then "plain/text" else s
  | none => "plain/text"

/-- JS `write_file(path, file_name, content, metadata)`: build the blob,
then dispatch like `mkdir`. -/
def write_file (v : Vfs) (path file_name content : String) (hint : Option String) :
    JsRet × Vfs × List FsCall :=
  let blob := MetaVal.vblob file_name content (ctypeOf hint)
  match get_mount v path with
  | (none, rest) =>
    let vi := _write_file_memfs v 0 rest blob
    (JsRet.node vi.2, vi.1, [])
  | (some mp, rest) =>
    if mp.mtype = "local" then _write_file_local v mp rest blob else (JsRet.undef, v, [])

/-- The provider's answer to `FS.fileOpen()`: a named blob, or `none` for
user cancellation / failure (the JS `catch` turns it into `false`). -/
structure FileBlob where
  name : String
  content : String
  ctype : String
deriving DecidableEq

/-- One entry of the provider's answer to `FS.directoryOpen`: a blob with
its `webkitRelativePath` and the handle of its immediate parent directory. -/
structure FolderBlob where
  relativePath : String
  name : String
  content : String
  directoryHandle : Nat
deriving DecidableEq

/-- JS `mount_local_file(path)`.  When `open(path)` misses, the JS code
crashes on the subsequent `_push` and the `catch` yields `false` with no
mutation; a cancelled provider likewise yields `false`. -/
def mount_local_file (res : Option FileBlob) (v : Vfs) (path : String) : JsRet × Vfs :=
  match openPath v path with
  | none => (JsRet.falsev, v)
  | some r =>
    match res with
    | none => (JsRet.falsev, v)
    | some b =>
      let vi := _push v r (normalize_path b.name)
        [("blob", MetaVal.vblob b.name b.content "local"), ("type", MetaVal.vstr "file")]
      let v2 : Vfs := { vi.1 with mount_points := vi.1.mount_points ++
        [{ mtype := "local", path := path ++ "/" ++ b.name, root := some vi.2 }] }
      (JsRet.node vi.2, v2)

/-- The per-blob loop of JS `mount_local_folder`: push the blob's relative
path, then attach its directory handle to the pushed node's parent.  A
parentless pushed node (the JS `node.parent.metadata` on `null`) throws:
the `Bool` result flags that the `catch` branch was taken, keeping the
mutations made so far. -/
def mountFolderLoop (v : Vfs) (r : Nat) : List FolderBlob → Vfs × Bool
  | [] => (v, false)
  | b :: bs =>
    let vi := _push v r (normalize_path b.relativePath)
      [("blob", MetaVal.vblob b.name b.content "local")]
    match (getNode? vi.1 vi.2).bind (fun n => n.parent) with
    | none => (vi.1, true)
    | some p =>
      let v2 := modifyNode vi.1 p (fun n =>
        { n with metadata := setKey n.metadata "directoryHandle" (MetaVal.vhandle b.directoryHandle) })
      mountFolderLoop v2 r bs

/-- The registration tail of JS `mount_local_folder(path)`: register a
mount at `path + "/" + <first segment of the last blob's relative path>`.
An empty provider answer yields `false`; a last path with no segments makes
the JS code look up the property `"undefined"` and register whatever that
gives (possibly an `undefined` root). -/
def mountFolderFinish (v1 : Vfs) (r : Nat) (path : String) (blobs : List FolderBlob) : JsRet × Vfs :=
  match blobs.getLast? with
  | none => (JsRet.falsev, v1)
  | some lastb =>
    let root_name := (normalize_path lastb.relativePath).headD "undefined"
    let mnode := childOf v1 r root_name
    let v2 : Vfs := { v1 with mount_points := v1.mount_points ++
      [{ mtype := "local", path := path ++ "/" ++ root_name, root := mnode }] }
    (match mnode with | some i => JsRet.node i | none => JsRet.undef, v2)

/-- JS `mount_local_folder`, continued: dispatch on the loop's crash flag,
then register the mount via `mountFolderFinish`. -/
def mount_local_folder (blobs : List FolderBlob) (v : Vfs) (path : String) : JsRet × Vfs :=
  match openPath v path with
  | none => (JsRet.falsev, v)
  | some r =>
    let pr := mountFolderLoop v r blobs
    if pr.2 then (JsRet.falsev, pr.1) else mountFolderFinish pr.1 r path blobs

/-- One public operation of the façade, with the provider's behaviour for
that call supplied as data (the oracle for `mkdir`, the chosen blobs for
the mount calls). -/
inductive Op where
  | mkdirOp (env : Nat → String → Nat) (path : String)
  | writeFileOp (path file_name content : String) (hint : Option String)
  | mountFileOp (res : Option FileBlob) (path : String)
  | mountFolderOp (blobs : List FolderBlob) (path : String)
  | openOp (path : String)
  | lsOp (path : String)

/-- State effect of one public operation. -/
def runOp (v : Vfs) : Op → Vfs
  | Op.mkdirOp env p => (mkdir env v p).2.1
  | Op.writeFileOp p f c h => (write_file v p f c h).2.1
  | Op.mountFileOp res p => (mount_local_file res v p).2
  | Op.mountFolderOp bs p => (mount_local_folder bs v p).2
  | Op.openOp _ => v
  | Op.lsOp _ => v

/-- State after a sequence of public operations on a fresh instance. -/
def runOps (ops : List Op) : Vfs :=
  ops.foldl runOp initVfs

/-- Structural sanity of a state, as an executable check: child edges go to
strictly larger, in-range arena indices, sibling keys are distinct, and each
child's `name` field agrees with its key.  This holds in every reachable
state (nodes are only appended, and a child edge only ever targets the
fresh last index). -/
def wellFormedB (v : Vfs) : Bool :=
  (List.range v.nodes.length).all (fun i =>
    match getIdx v.nodes i with
    | some n =>
      (n.children.all (fun p =>
        decide (i < p.2) && decide (p.2 < v.nodes.length) &&
        (match getIdx v.nodes p.2 with
         | some m => m.name == p.1
         | none => true))) &&
      decide (n.children.map Prod.fst).Nodup
    | none => true)

/-- Structural sanity of a state (propositional form of `wellFormedB`):
child edges go to strictly larger in-range indices, sibling keys are
distinct, and a child's `name` agrees with its key.  In JS every
`_children` value is an actual node object; in the arena model this
invariant expresses exactly that reference validity, and it holds in every
state reachable through the public operations. -/
def WellFormed (v : Vfs) : Prop :=
  ∀ i n, getIdx v.nodes i = some n →
    (∀ p ∈ n.children, i < p.2 ∧ p.2 < v.nodes.length ∧
       ∀ m, getIdx v.nodes p.2 = some m → m.name = p.1) ∧
    (n.children.map Prod.fst).Nodup

/-- The handles returned by the oracle along a chain of segment names,
starting from parent handle `h`. -/
def chainHandles (env : Nat → String → Nat) (h : Nat) : List String → List Nat
  | [] => []
  | s :: ss => env h s :: chainHandles env (env h s) ss

/-- The provider calls `_mkdir_local` issues along a chain of segments. -/
def chainCalls (env : Nat → String → Nat) (h : Nat) : List String → List FsCall
  | [] => []
  | s :: ss => FsCall.getDirectoryHandle h s true :: chainCalls env (env h s) ss

/-- The arena indices of the nodes reached from `c` along successive
segments (child of `c`, grandchild, ...). -/
def chainNodes (v : Vfs) (c : Nat) : List String → Option (List Nat)
  | [] => some []
  | s :: ss => (childOf v c s).bind (fun j => (chainNodes v j ss).map (fun l => j :: l))

/-- Id discipline of one instance: the counter equals the arena size and
every node's `id` metadata equals its creation rank (its arena index). -/
def GoodIds (v : Vfs) : Prop :=
  v.node_id = v.nodes.length ∧
    ∀ i n, getIdx v.nodes i = some n → alLookup "id" n.metadata = some (MetaVal.vnat i)

/-- Executable check that the node resolved by `segs` (if any) carries no
`directoryHandle`; vacuously true when the path does not resolve. -/
def noHandleB (v : Vfs) (root : Option Nat) (segs : List String) : Bool :=
  match _open v root segs with
  | some i => (getHandleAt v i).isNone
  | none => true

/-- A state with one local folder mount: the provider yielded a single file
`proj/x.txt` whose parent directory handle is `7`, mounted at `/proj`. -/
def vMounted : Vfs :=
  (mount_local_folder [{ relativePath := "proj/x.txt", name := "x.txt", content := "xx", directoryHandle := 7 }] initVfs "").2

/-- A state with one local file mount `/f.txt` whose root node (a file
node) never received a directory handle. -/
def vFileMount : Vfs :=
  (mount_local_file (some { name := "f.txt", content := "data", ctype := "t" }) initVfs "").2

/-- A state whose mount table holds a single mount registered at `/docs`. -/
def vDocs : Vfs :=
  { initVfs with mount_points := [{ mtype := "local", path := "/docs", root := some 0 }] }

/-- A concrete provider oracle handing out distinct directory handles. -/
def envA : Nat → String → Nat := fun h s => h * 10 + s.length

/-! Basic facts about the arena and association-list primitives. -/

theorem getIdx_lt {α : Type} {l : List α} {i : Nat} {a : α} (h : getIdx l i = some a) :
    i < l.length := by
  induction l generalizing i with
  | nil => simp [getIdx] at h
  | cons x xs ih =>
    cases i with
    | zero => simp
    | succ n =>
      simp only [getIdx] at h
      exact Nat.succ_lt_succ (ih h)

theorem getIdx_append_left {α : Type} {l : List α} (m : List α) {i : Nat} (h : i < l.length) :
    getIdx (l ++ m) i = getIdx l i := by
  induction l generalizing i with
  | nil => simp at h
  | cons x xs ih =>
    cases i with
    | zero => simp [getIdx]
    | succ n =>
      simp only [List.cons_append, getIdx]
      exact ih (Nat.lt_of_succ_lt_succ h)

theorem getIdx_append_self {α : Type} (l : List α) (a : α) :
    getIdx (l ++ [a]) l.length = some a := by
  induction l with
  | nil => simp [getIdx]
  | cons x xs ih => simpa [getIdx] using ih

theorem length_setIdx {α : Type} (l : List α) (i : Nat) (b : α) :
    (setIdx l i b).length = l.length := by
  induction l generalizing i with
  | nil => simp [setIdx]
  | cons x xs ih =>
    cases i with
    | zero => simp [setIdx]
    | succ n => simp [setIdx, ih]

theorem getIdx_setIdx_eq {α : Type} {l : List α} {i : Nat} (b : α) (h : i < l.length) :
    getIdx (setIdx l i b) i = some b := by
  induction l generalizing i with
  | nil => simp at h
  | cons x xs ih =>
    cases i with
    | zero => simp [setIdx, getIdx]
    | succ n => simpa [setIdx, getIdx] using ih (Nat.lt_of_succ_lt_succ h)

theorem getIdx_setIdx_ne {α : Type} {l : List α} {i j : Nat} (b : α) (h : j ≠ i) :
    getIdx (setIdx l i b) j = getIdx l j := by
  induction l generalizing i j with
  | nil => simp [setIdx]
  | cons x xs ih =>
    cases i with
    | zero =>
      cases j with
      | zero => exact absurd rfl h
      | succ m => simp [setIdx, getIdx]
    | succ n =>
      cases j with
      | zero => simp [setIdx, getIdx]
      | succ m =>
        simp only [setIdx, getIdx]
        exact ih (fun hh => h (by simp [hh]))

theorem alLookup_append_some {β : Type} {k : String} {l : List (String × β)} {b : β}
    (m : List (String × β)) (h : alLookup k l = some b) :
    alLookup k (l ++ m) = some b := by
  induction l with
  | nil => simp [alLookup] at h
  | cons p ps ih =>
    obtain ⟨a, w⟩ := p
    rw [List.cons_append]
    by_cases hp : a = k
    · rw [show alLookup k ((a, w) :: ps) = some w from by rw [alLookup, if_pos hp]] at h
      rw [alLookup, if_pos hp, h]
    · rw [alLookup, if_neg hp] at h
      rw [alLookup, if_neg hp]
      exact ih h

theorem alLookup_append_none {β : Type} {k : String} {l : List (String × β)}
    (m : List (String × β)) (h : alLookup k l = none) :
    alLookup k (l ++ m) = alLookup k m := by
  induction l with
  | nil => simp
  | cons p ps ih =>
    obtain ⟨a, w⟩ := p
    rw [List.cons_append]
    by_cases hp : a = k
    · rw [alLookup, if_pos hp] at h
      exact absurd h (by simp)
    · rw [alLookup, if_neg hp] at h
      rw [alLookup, if_neg hp]
      exact ih h

theorem alLookup_map_setKey_eq {k : String} (v : MetaVal) (md : Metadata)
    (h : (alLookup k md).isSome = true) :
    alLookup k (md.map (fun p => if p.1 = k then (k, v) else p)) = some v := by
  induction md with
  | nil => simp [alLookup] at h
  | cons p ps ih =>
    obtain ⟨a, w⟩ := p
    rw [List.map_cons]
    by_cases hp : a = k
    · have : (if (a, w).1 = k then (k, v) else (a, w)) = (k, v) := if_pos hp
      rw [this, alLookup, if_pos rfl]
    · have hstep : (if (a, w).1 = k then (k, v) else (a, w)) = (a, w) := if_neg hp
      rw [hstep, alLookup, if_neg hp]
      rw [alLookup, if_neg hp] at h
      exact ih h

theorem alLookup_map_setKey_ne {k k' : String} (v : MetaVal) (md : Metadata) (h : k' ≠ k) :
    alLookup k' (md.map (fun p => if p.1 = k then (k, v) else p)) = alLookup k' md := by
  induction md with
  | nil => simp
  | cons p ps ih =>
    obtain ⟨a, w⟩ := p
    rw [List.map_cons]
    by_cases hp : a = k
    · have hstep : (if (a, w).1 = k then (k, v) else (a, w)) = (k, v) := if_pos hp
      have hk : ¬(k = k') := fun hh => h hh.symm
      have ha : ¬(a = k') := fun hh => hk (hp ▸ hh)
      rw [hstep, alLookup, if_neg hk, alLookup, if_neg ha]
      exact ih
    · have hstep : (if (a, w).1 = k then (k, v) else (a, w)) = (a, w) := if_neg hp
      rw [hstep]
      by_cases hq : a = k'
      · rw [alLookup, if_pos hq, alLookup, if_pos hq]
      · rw [alLookup, if_neg hq, alLookup, if_neg hq]
        exact ih

theorem alLookup_setKey_self (md : Metadata) (k : String) (v : MetaVal) :
    alLookup k (setKey md k v) = some v := by
  unfold setKey
  by_cases h : (alLookup k md).isSome = true
  · rw [if_pos h]
    exact alLookup_map_setKey_eq v md h
  · have hn : alLookup k md = none := by
      cases hx : alLookup k md with
      | none => rfl
      | some b => rw [hx] at h; simp at h
    rw [if_neg h, alLookup_append_none _ hn, alLookup, if_pos rfl]

theorem alLookup_setKey_ne (md : Metadata) {k k' : String} (v : MetaVal) (h : k' ≠ k) :
    alLookup k' (setKey md k v) = alLookup k' md := by
  unfold setKey
  by_cases hs : (alLookup k md).isSome = true
  · rw [if_pos hs]
    exact alLookup_map_setKey_ne v md h
  · rw [if_neg hs]
    cases hx : alLookup k' md with
    | some b => exact alLookup_append_some _ hx
    | none =>
      rw [alLookup_append_none _ hx, alLookup, if_neg (fun hh => h hh.symm)]
      rfl

theorem alLookup_objAssign_not_mem (md : Metadata) {src : Metadata} {k : String}
    (h : ∀ p ∈ src, p.1 ≠ k) :
    alLookup k (objAssign md src) = alLookup k md := by
  induction src generalizing md with
  | nil => simp [objAssign]
  | cons p ps ih =>
    have hp : p.1 ≠ k := h p (by simp)
    have hrec := ih (setKey md p.1 p.2) (fun q hq => h q (by simp [hq]))
    simp only [objAssign, List.foldl_cons] at hrec ⊢
    rw [hrec, alLookup_setKey_ne md p.2 (fun hh => hp hh.symm)]

theorem alLookup_objAssign_last (md : Metadata) {src : Metadata} {k : String} {v : MetaVal}
    (hnd : (src.map Prod.fst).Nodup) (h : alLookup k src = some v) :
    alLookup k (objAssign md src) = some v := by
  induction src generalizing md with
  | nil => simp [alLookup] at h
  | cons p ps ih =>
    simp only [List.map_cons, List.nodup_cons] at hnd
    by_cases hp : p.1 = k
    · rw [alLookup, if_pos hp] at h
      have hv := Option.some.inj h
      simp only [objAssign, List.foldl_cons]
      have hnm : ∀ q ∈ ps, q.1 ≠ k := by
        intro q hq hqk
        have hm : q.1 ∈ ps.map Prod.fst := List.mem_map_of_mem Prod.fst hq
        rw [hqk, ← hp] at hm
        exact hnd.1 hm
      have := alLookup_objAssign_not_mem (setKey md p.1 p.2) hnm
      simp only [objAssign] at this
      rw [this, hp, alLookup_setKey_self, hv]
    · rw [alLookup, if_neg hp] at h
      simp only [objAssign, List.foldl_cons]
      exact ih _ hnd.2 h

/-! Facts about node modification and congruence of the walking functions. -/

theorem modifyNode_length (v : Vfs) (i : Nat) (f : VfsNode → VfsNode) :
    (modifyNode v i f).nodes.length = v.nodes.length := by
  unfold modifyNode
  cases h : getIdx v.nodes i with
  | none => rfl
  | some n => simp [length_setIdx]

theorem modifyNode_node_id (v : Vfs) (i : Nat) (f : VfsNode → VfsNode) :
    (modifyNode v i f).node_id = v.node_id := by
  unfold modifyNode
  cases h : getIdx v.nodes i <;> rfl

theorem modifyNode_mount_points (v : Vfs) (i : Nat) (f : VfsNode → VfsNode) :
    (modifyNode v i f).mount_points = v.mount_points := by
  unfold modifyNode
  cases h : getIdx v.nodes i <;> rfl

theorem getIdx_modifyNode_eq {v : Vfs} {i : Nat} {n : VfsNode} (f : VfsNode → VfsNode)
    (h : getIdx v.nodes i = some n) :
    getIdx (modifyNode v i f).nodes i = some (f n) := by
  unfold modifyNode
  rw [h]
  exact getIdx_setIdx_eq (f n) (getIdx_lt h)

theorem getIdx_modifyNode_ne (f : VfsNode → VfsNode) {v : Vfs} {i j : Nat} (h : j ≠ i) :
    getIdx (modifyNode v i f).nodes j = getIdx v.nodes j := by
  unfold modifyNode
  cases hx : getIdx v.nodes i with
  | none => rfl
  | some n => exact getIdx_setIdx_ne (f n) h

theorem childOf_modifyNode {f : VfsNode → VfsNode} (hf : ∀ n, (f n).children = n.children)
    (v : Vfs) (i a : Nat) (b : String) :
    childOf (modifyNode v i f) a b = childOf v a b := by
  by_cases hai : a = i
  · subst hai
    cases hx : getIdx v.nodes a with
    | none =>
      have hv : modifyNode v a f = v := by
        unfold modifyNode
        rw [hx]
      rw [hv]
    | some n =>
      unfold childOf getNode?
      rw [getIdx_modifyNode_eq f hx, hx]
      show alLookup b (f n).children = alLookup b n.children
      rw [hf n]
  · unfold childOf getNode?
    rw [getIdx_modifyNode_ne f hai]

theorem openWalk_congr {v v' : Vfs} (hc : ∀ a b, childOf v' a b = childOf v a b)
    (c : Nat) (segs : List String) :
    openWalk v' c segs = openWalk v c segs := by
  induction segs generalizing c with
  | nil => rfl
  | cons s rest ih =>
    simp only [openWalk, hc]
    cases childOf v c s with
    | none => rfl
    | some j => exact ih j

theorem chainNodes_congr {v v' : Vfs} (hc : ∀ a b, childOf v' a b = childOf v a b)
    (c : Nat) (segs : List String) :
    chainNodes v' c segs = chainNodes v c segs := by
  induction segs generalizing c with
  | nil => rfl
  | cons s rest ih =>
    simp only [chainNodes, hc]
    cases childOf v c s with
    | none => rfl
    | some j =>
      show Option.map (fun l => j :: l) (chainNodes v' j rest) =
        Option.map (fun l => j :: l) (chainNodes v j rest)
      rw [ih j]

/-! The decidability bridge for `WellFormed`. -/

theorem wellFormed_iff (v : Vfs) : WellFormed v ↔ wellFormedB v = true := by
  constructor
  · intro h
    unfold wellFormedB
    rw [List.all_eq_true]
    intro i hi
    cases hx : getIdx v.nodes i with
    | none => simp
    | some n =>
      obtain ⟨h1, h2⟩ := h i n hx
      simp only [Bool.and_eq_true, List.all_eq_true, decide_eq_true_eq]
      refine ⟨?_, h2⟩
      intro p hp
      obtain ⟨ha, hb, hname⟩ := h1 p hp
      refine ⟨⟨ha, hb⟩, ?_⟩
      cases hy : getIdx v.nodes p.2 with
      | none => simp
      | some m => simpa using hname m hy
  · intro h i n hx
    unfold wellFormedB at h
    rw [List.all_eq_true] at h
    have hi := getIdx_lt hx
    have hh := h i (List.mem_range.mpr hi)
    rw [hx] at hh
    simp only [Bool.and_eq_true, List.all_eq_true, decide_eq_true_eq] at hh
    refine ⟨?_, hh.2⟩
    intro p hp
    have hq := hh.1 p hp
    simp only [Bool.and_eq_true, decide_eq_true_eq] at hq
    refine ⟨hq.1.1, hq.1.2, ?_⟩
    intro m hm
    rw [hm] at hq
    simpa using hq.2

instance (v : Vfs) : Decidable (WellFormed v) :=
  decidable_of_iff (wellFormedB v = true) (wellFormed_iff v).symm

/-! The walking phase of `_push` only appends nodes and extends child maps. -/

/-- `v'` extends `v`: every old node is still there with the same name,
parent and metadata, and with its child map only appended to. -/
def Extends (v v' : Vfs) : Prop :=
  v.nodes.length ≤ v'.nodes.length ∧
  ∀ i n, getIdx v.nodes i = some n → ∃ n', getIdx v'.nodes i = some n' ∧
    n'.name = n.name ∧ n'.parent = n.parent ∧ n'.metadata = n.metadata ∧
    ∃ ext, n'.children = n.children ++ ext

theorem extends_refl (v : Vfs) : Extends v v := by
  refine ⟨Nat.le_refl _, ?_⟩
  intro i n h
  exact ⟨n, h, rfl, rfl, rfl, [], by simp⟩

theorem extends_trans {u v w : Vfs} (h1 : Extends u v) (h2 : Extends v w) : Extends u w := by
  refine ⟨Nat.le_trans h1.1 h2.1, ?_⟩
  intro i n h
  obtain ⟨n', hn', ha, hb, hc, ext, he⟩ := h1.2 i n h
  obtain ⟨n'', hn'', ha', hb', hc', ext', he'⟩ := h2.2 i n' hn'
  exact ⟨n'', hn'', ha'.trans ha, hb'.trans hb, hc'.trans hc, ext ++ ext',
    by rw [he', he, List.append_assoc]⟩

theorem extends_childOf {v v' : Vfs} (h : Extends v v') {a : Nat} {b : String} {j : Nat}
    (hc : childOf v a b = some j) : childOf v' a b = some j := by
  unfold childOf getNode? at hc ⊢
  cases hx : getIdx v.nodes a with
  | none => rw [hx] at hc; exact absurd hc (by simp)
  | some n =>
    rw [hx] at hc
    have hc' : alLookup b n.children = some j := hc
    obtain ⟨n', hn', _, _, _, ext, he⟩ := h.2 a n hx
    rw [hn']
    show alLookup b n'.children = some j
    rw [he]
    exact alLookup_append_some ext hc'

theorem extends_openWalk {v v' : Vfs} (h : Extends v v') {c t : Nat} {segs : List String}
    (hw : openWalk v c segs = some t) : openWalk v' c segs = some t := by
  induction segs generalizing c with
  | nil => exact hw
  | cons s rest ih =>
    simp only [openWalk] at hw ⊢
    cases hch : childOf v c s with
    | none => rw [hch] at hw; exact absurd hw (by simp)
    | some j =>
      rw [hch] at hw
      rw [extends_childOf h hch]
      exact ih hw

theorem pushStep_length (v : Vfs) (c : Nat) (s : String) :
    (pushStep v c s).nodes.length = v.nodes.length + 1 := by
  unfold pushStep
  rw [modifyNode_length]
  simp

theorem pushStep_node_id (v : Vfs) (c : Nat) (s : String) :
    (pushStep v c s).node_id = v.node_id + 1 := by
  unfold pushStep
  rw [modifyNode_node_id]

theorem pushStep_mount_points (v : Vfs) (c : Nat) (s : String) :
    (pushStep v c s).mount_points = v.mount_points := by
  unfold pushStep
  rw [modifyNode_mount_points]

theorem pushStep_extends (v : Vfs) (c : Nat) (s : String) : Extends v (pushStep v c s) := by
  unfold pushStep
  refine ⟨by rw [modifyNode_length]; simp, ?_⟩
  intro i n hin
  have hlt := getIdx_lt hin
  have hin1 : getIdx (v.nodes ++ [freshNode v c s]) i = some n :=
    (getIdx_append_left [freshNode v c s] hlt).trans hin
  by_cases hic : i = c
  · subst hic
    exact ⟨{ n with children := n.children ++ [(s, v.nodes.length)] },
      getIdx_modifyNode_eq _ hin1, rfl, rfl, rfl, [(s, v.nodes.length)], rfl⟩
  · exact ⟨n, by rw [getIdx_modifyNode_ne _ hic]; exact hin1, rfl, rfl, rfl, [], by simp⟩

theorem pushStep_fresh (v : Vfs) (c : Nat) (s : String) :
    ∃ m, getIdx (pushStep v c s).nodes v.nodes.length = some m ∧
      m.metadata = [("id", MetaVal.vnat v.node_id), ("type", MetaVal.vstr "folder")] ∧
      m.name = s := by
  simp only [pushStep]
  have hbase : getIdx
      ({ v with nodes := v.nodes ++ [freshNode v c s], node_id := v.node_id + 1 } : Vfs).nodes
      v.nodes.length = some (freshNode v c s) :=
    getIdx_append_self v.nodes (freshNode v c s)
  by_cases hic : v.nodes.length = c
  · subst hic
    exact ⟨{ freshNode v v.nodes.length s with
        children := (freshNode v v.nodes.length s).children ++ [(s, v.nodes.length)] },
      getIdx_modifyNode_eq _ hbase, rfl, rfl⟩
  · refine ⟨freshNode v c s, ?_, rfl, rfl⟩
    rw [getIdx_modifyNode_ne _ (fun hh => hic hh)]
    exact hbase

theorem getIdx_isSome_of_lt {α : Type} {l : List α} {i : Nat} (h : i < l.length) :
    ∃ a, getIdx l i = some a := by
  induction l generalizing i with
  | nil => simp at h
  | cons x xs ih =>
    cases i with
    | zero => exact ⟨x, rfl⟩
    | succ n => exact ih (Nat.lt_of_succ_lt_succ h)

theorem pushStep_childOf (v : Vfs) {c : Nat} (s : String) (hc : c < v.nodes.length)
    (hch : childOf v c s = none) :
    childOf (pushStep v c s) c s = some v.nodes.length := by
  obtain ⟨n, hx⟩ := getIdx_isSome_of_lt hc
  unfold childOf getNode? at hch ⊢
  rw [hx] at hch
  have hch' : alLookup s n.children = none := hch
  have hin1 : getIdx ({ v with nodes := v.nodes ++ [freshNode v c s], node_id := v.node_id + 1 } : Vfs).nodes c = some n := by
    show getIdx (v.nodes ++ [freshNode v c s]) c = some n
    exact (getIdx_append_left [freshNode v c s] hc).trans hx
  simp only [pushStep]
  rw [getIdx_modifyNode_eq _ hin1]
  show alLookup s (n.children ++ [(s, v.nodes.length)]) = some v.nodes.length
  rw [alLookup_append_none _ hch', alLookup, if_pos rfl]

theorem pushWalk_extends (v : Vfs) (c : Nat) (segs : List String) :
    Extends v (pushWalk v c segs).1 := by
  induction segs generalizing v c with
  | nil => exact extends_refl v
  | cons s rest ih =>
    cases hch : childOf v c s with
    | some j => simpa only [pushWalk, hch] using ih v j
    | none =>
      simp only [pushWalk, hch]
      exact extends_trans (pushStep_extends v c s) (ih (pushStep v c s) v.nodes.length)

theorem pushWalk_mount_points (v : Vfs) (c : Nat) (segs : List String) :
    (pushWalk v c segs).1.mount_points = v.mount_points := by
  induction segs generalizing v c with
  | nil => rfl
  | cons s rest ih =>
    cases hch : childOf v c s with
    | some j => simpa only [pushWalk, hch] using ih v j
    | none =>
      simp only [pushWalk, hch]
      rw [ih, pushStep_mount_points]

theorem pushWalk_new (v : Vfs) (c : Nat) (segs : List String) :
    ∀ i n', v.nodes.length ≤ i → getIdx (pushWalk v c segs).1.nodes i = some n' →
      ∃ k, n'.metadata = [("id", MetaVal.vnat k), ("type", MetaVal.vstr "folder")] := by
  induction segs generalizing v c with
  | nil =>
    intro i n' hle hin
    exact absurd (getIdx_lt hin) (Nat.not_lt.mpr hle)
  | cons s rest ih =>
    intro i n' hle hin
    cases hch : childOf v c s with
    | some j =>
      rw [show pushWalk v c (s :: rest) = pushWalk v j rest from by simp only [pushWalk, hch]] at hin
      exact ih v j i n' hle hin
    | none =>
      rw [show pushWalk v c (s :: rest) = pushWalk (pushStep v c s) v.nodes.length rest from by
        simp only [pushWalk, hch]] at hin
      rcases Nat.lt_or_ge i ((pushStep v c s).nodes.length) with hi2 | hi2
      · have hieq : i = v.nodes.length := by
          rw [pushStep_length] at hi2
          omega
        subst hieq
        obtain ⟨m, hm, hmd, _⟩ := pushStep_fresh v c s
        obtain ⟨n2, hn2, _, _, hmd2, _, _⟩ :=
          (pushWalk_extends (pushStep v c s) v.nodes.length rest).2 _ _ hm
        rw [hn2] at hin
        have heq := Option.some.inj hin
        exact ⟨v.node_id, by rw [← heq, hmd2, hmd]⟩
      · exact ih (pushStep v c s) v.nodes.length i n' hi2 hin

theorem alLookup_none_not_mem {β : Type} {k : String} {l : List (String × β)}
    (h : alLookup k l = none) : k ∉ l.map Prod.fst := by
  induction l with
  | nil => simp
  | cons p ps ih =>
    by_cases hp : p.1 = k
    · rw [alLookup, if_pos hp] at h
      exact absurd h (by simp)
    · rw [alLookup, if_neg hp] at h
      simp only [List.map_cons, List.mem_cons]
      rintro (hh | hh)
      · exact hp hh.symm
      · exact ih h hh

theorem pushStep_childOf_old {v : Vfs} {c : Nat} {s : String} {a : Nat} {b : String}
    (hne : ¬(a = c ∧ b = s)) (ha : a < v.nodes.length) :
    childOf (pushStep v c s) a b = childOf v a b := by
  obtain ⟨n, hx⟩ := getIdx_isSome_of_lt ha
  have hx1 : getIdx ({ v with nodes := v.nodes ++ [freshNode v c s], node_id := v.node_id + 1 } : Vfs).nodes a = some n := by
    show getIdx (v.nodes ++ [freshNode v c s]) a = some n
    exact (getIdx_append_left [freshNode v c s] ha).trans hx
  by_cases hac : a = c
  · subst hac
    have hbs : ¬(b = s) := fun hh => hne ⟨rfl, hh⟩
    simp only [pushStep]
    unfold childOf getNode?
    rw [getIdx_modifyNode_eq _ hx1, hx]
    show alLookup b (n.children ++ [(s, v.nodes.length)]) = alLookup b n.children
    cases hl : alLookup b n.children with
    | some j => exact alLookup_append_some _ hl
    | none =>
      rw [alLookup_append_none _ hl, alLookup, if_neg (fun hh => hbs hh.symm)]
      rfl
  · simp only [pushStep]
    unfold childOf getNode?
    rw [getIdx_modifyNode_ne _ hac, hx1, hx]

theorem pushStep_wf {v : Vfs} {c : Nat} {s : String} (hwf : WellFormed v)
    (hc : c < v.nodes.length) (hch : childOf v c s = none) :
    WellFormed (pushStep v c s) := by
  have hlen : (pushStep v c s).nodes.length = v.nodes.length + 1 := pushStep_length v c s
  obtain ⟨nc, hnc⟩ := getIdx_isSome_of_lt hc
  have hnc1 : getIdx ({ v with nodes := v.nodes ++ [freshNode v c s], node_id := v.node_id + 1 } : Vfs).nodes c = some nc := by
    show getIdx (v.nodes ++ [freshNode v c s]) c = some nc
    exact (getIdx_append_left [freshNode v c s] hc).trans hnc
  have hwc : getIdx (pushStep v c s).nodes c =
      some { nc with children := nc.children ++ [(s, v.nodes.length)] } := by
    simp only [pushStep]
    exact getIdx_modifyNode_eq _ hnc1
  -- name of any old node is unchanged, the fresh node is named `s`
  have hname : ∀ j m, getIdx v.nodes j = some m →
      ∃ m', getIdx (pushStep v c s).nodes j = some m' ∧ m'.name = m.name := by
    intro j m hm
    obtain ⟨m', hm', hn, _, _, _, _⟩ := (pushStep_extends v c s).2 j m hm
    exact ⟨m', hm', hn⟩
  intro i n' hin
  rcases Nat.lt_or_ge i v.nodes.length with hi | hi
  · obtain ⟨ni, hni⟩ := getIdx_isSome_of_lt hi
    obtain ⟨hedges, hnd⟩ := hwf i ni hni
    by_cases hic : i = c
    · subst hic
      rw [hwc] at hin
      have hn' := Option.some.inj hin
      subst hn'
      constructor
      · intro p hp
        simp only [List.mem_append, List.mem_singleton] at hp
        have hnieq : ni = nc := by
          rw [hni] at hnc
          exact Option.some.inj hnc
        subst hnieq
        rcases hp with hp | hp
        · obtain ⟨h1, h2, h3⟩ := hedges p hp
          refine ⟨h1, by omega, ?_⟩
          intro m hm
          obtain ⟨mold, hmold⟩ := getIdx_isSome_of_lt h2
          obtain ⟨m', hm', hmn⟩ := hname p.2 mold hmold
          rw [hm'] at hm
          rw [← Option.some.inj hm, hmn]
          exact h3 mold hmold
        · subst hp
          refine ⟨hc, by simp [hlen], ?_⟩
          intro m hm
          obtain ⟨mf, hmf, _, hmfn⟩ := pushStep_fresh v i s
          rw [hmf] at hm
          rw [← Option.some.inj hm, hmfn]
      · have hnieq : ni = nc := by
          rw [hni] at hnc
          exact Option.some.inj hnc
        subst hnieq
        simp only [List.map_append, List.map_cons, List.map_nil]
        rw [List.nodup_append]
        refine ⟨hnd, List.nodup_singleton s, ?_⟩
        intro x hx hxs
        simp only [List.mem_singleton] at hxs
        subst hxs
        unfold childOf getNode? at hch
        rw [hnc] at hch
        exact alLookup_none_not_mem hch hx
    · have hsame : getIdx (pushStep v c s).nodes i = some ni := by
        simp only [pushStep]
        rw [getIdx_modifyNode_ne _ hic]
        show getIdx (v.nodes ++ [freshNode v c s]) i = some ni
        exact (getIdx_append_left [freshNode v c s] hi).trans hni
      rw [hsame] at hin
      have heq := Option.some.inj hin
      subst heq
      obtain ⟨hedges2, hnd2⟩ := hwf i ni hni
      constructor
      · intro p hp
        obtain ⟨h1, h2, h3⟩ := hedges2 p hp
        refine ⟨h1, by omega, ?_⟩
        intro m hm
        obtain ⟨mold, hmold⟩ := getIdx_isSome_of_lt h2
        obtain ⟨m', hm', hmn⟩ := hname p.2 mold hmold
        rw [hm'] at hm
        rw [← Option.some.inj hm, hmn]
        exact h3 mold hmold
      · exact hnd2
  · have hieq : i = v.nodes.length := by
      have := getIdx_lt hin
      omega
    subst hieq
    obtain ⟨mf, hmf, _, _⟩ := pushStep_fresh v c s
    rw [hmf] at hin
    have := Option.some.inj hin
    subst this
    constructor
    · intro p hp
      by_cases hcf : v.nodes.length = c
      · exact absurd hcf (by omega)
      · -- the fresh node has no children
        have : mf.children = [] := by
          have hbase : getIdx
              ({ v with nodes := v.nodes ++ [freshNode v c s], node_id := v.node_id + 1 } : Vfs).nodes
              v.nodes.length = some (freshNode v c s) :=
            getIdx_append_self v.nodes (freshNode v c s)
          have : getIdx (pushStep v c s).nodes v.nodes.length = some (freshNode v c s) := by
            simp only [pushStep]
            rw [getIdx_modifyNode_ne _ hcf]
            exact hbase
          rw [this] at hmf
          rw [← Option.some.inj hmf]
          rfl
        rw [this] at hp
        exact absurd hp (by simp)
    · by_cases hcf : v.nodes.length = c
      · exact absurd hcf (by omega)
      · have : mf.children = [] := by
          have hbase : getIdx
              ({ v with nodes := v.nodes ++ [freshNode v c s], node_id := v.node_id + 1 } : Vfs).nodes
              v.nodes.length = some (freshNode v c s) :=
            getIdx_append_self v.nodes (freshNode v c s)
          have : getIdx (pushStep v c s).nodes v.nodes.length = some (freshNode v c s) := by
            simp only [pushStep]
            rw [getIdx_modifyNode_ne _ hcf]
            exact hbase
          rw [this] at hmf
          rw [← Option.some.inj hmf]
          rfl
        rw [this]
        exact List.nodup_nil

theorem alLookup_mem {β : Type} {k : String} {l : List (String × β)} {b : β}
    (h : alLookup k l = some b) : (k, b) ∈ l := by
  induction l with
  | nil => simp [alLookup] at h
  | cons p ps ih =>
    by_cases hp : p.1 = k
    · rw [alLookup, if_pos hp] at h
      obtain ⟨a, w⟩ := p
      simp only at hp h
      rw [List.mem_cons]
      left
      rw [← hp, ← Option.some.inj h]
    · rw [alLookup, if_neg hp] at h
      exact List.mem_cons_of_mem p (ih h)

theorem childOf_lt_of_wf {v : Vfs} (hwf : WellFormed v) {c : Nat} {s : String} {j : Nat}
    (hch : childOf v c s = some j) : j < v.nodes.length := by
  unfold childOf getNode? at hch
  cases hx : getIdx v.nodes c with
  | none => rw [hx] at hch; exact absurd hch (by simp)
  | some n =>
    rw [hx] at hch
    have hch' : alLookup s n.children = some j := hch
    exact ((hwf c n hx).1 (s, j) (alLookup_mem hch')).2.1

theorem childOf_gt_of_wf {v : Vfs} (hwf : WellFormed v) {c : Nat} {s : String} {j : Nat}
    (hch : childOf v c s = some j) : c < j := by
  unfold childOf getNode? at hch
  cases hx : getIdx v.nodes c with
  | none => rw [hx] at hch; exact absurd hch (by simp)
  | some n =>
    rw [hx] at hch
    have hch' : alLookup s n.children = some j := hch
    exact ((hwf c n hx).1 (s, j) (alLookup_mem hch')).1

theorem pushWalk_wf {v : Vfs} {c : Nat} (segs : List String) (hwf : WellFormed v)
    (hc : c < v.nodes.length) : WellFormed (pushWalk v c segs).1 := by
  induction segs generalizing v c with
  | nil => exact hwf
  | cons s rest ih =>
    cases hch : childOf v c s with
    | some j =>
      simp only [pushWalk, hch]
      exact ih hwf (childOf_lt_of_wf hwf hch)
    | none =>
      simp only [pushWalk, hch]
      have hwf2 := pushStep_wf hwf hc hch
      have hlt : v.nodes.length < (pushStep v c s).nodes.length := by
        rw [pushStep_length]
        omega
      exact ih hwf2 hlt

theorem pushWalk_establishes {v : Vfs} {c : Nat} (segs : List String) (hwf : WellFormed v)
    (hc : c < v.nodes.length) :
    openWalk (pushWalk v c segs).1 c segs = some (pushWalk v c segs).2 ∧
      (pushWalk v c segs).2 < (pushWalk v c segs).1.nodes.length := by
  induction segs generalizing v c with
  | nil => exact ⟨rfl, hc⟩
  | cons s rest ih =>
    cases hch : childOf v c s with
    | some j =>
      have hj := childOf_lt_of_wf hwf hch
      have hrec := ih hwf hj
      simp only [pushWalk, hch] at hrec ⊢
      have hchild : childOf (pushWalk v j rest).1 c s = some j :=
        extends_childOf (pushWalk_extends v j rest) hch
      simp only [openWalk, hchild]
      exact hrec
    | none =>
      have hwf2 := pushStep_wf hwf hc hch
      have hlt : v.nodes.length < (pushStep v c s).nodes.length := by
        rw [pushStep_length]
        omega
      have hrec := ih hwf2 hlt
      simp only [pushWalk, hch]
      have hchild : childOf (pushWalk (pushStep v c s) v.nodes.length rest).1 c s =
          some v.nodes.length :=
        extends_childOf (pushWalk_extends (pushStep v c s) v.nodes.length rest)
          (pushStep_childOf v s hc hch)
      simp only [openWalk, hchild]
      exact hrec

theorem pushWalk_pure {v : Vfs} {c t : Nat} {segs : List String}
    (h : openWalk v c segs = some t) : pushWalk v c segs = (v, t) := by
  induction segs generalizing c with
  | nil => exact congrArg (Prod.mk v) (Option.some.inj h)
  | cons s rest ih =>
    simp only [openWalk] at h
    cases hch : childOf v c s with
    | none => rw [hch] at h; exact absurd h (by simp)
    | some j =>
      rw [hch] at h
      simp only [pushWalk, hch]
      exact ih h

theorem getIdx_modifyNode_inv (f : VfsNode → VfsNode) {v : Vfs} {i j : Nat} {n' : VfsNode}
    (h : getIdx (modifyNode v i f).nodes j = some n') :
    ∃ n, getIdx v.nodes j = some n ∧ (n' = n ∨ (j = i ∧ n' = f n)) := by
  by_cases hj : j = i
  · subst hj
    cases hx : getIdx v.nodes j with
    | none =>
      have hv : modifyNode v j f = v := by
        unfold modifyNode
        rw [hx]
      rw [hv] at h
      exact absurd (h.symm.trans hx).symm (by simp)
    | some n =>
      rw [getIdx_modifyNode_eq f hx] at h
      exact ⟨n, rfl, Or.inr ⟨rfl, (Option.some.inj h).symm⟩⟩
  · rw [getIdx_modifyNode_ne f hj] at h
    exact ⟨n', h, Or.inl rfl⟩

theorem wf_modify_preserving {v : Vfs} {i : Nat} {f : VfsNode → VfsNode} (hwf : WellFormed v)
    (hf : ∀ n, (f n).name = n.name ∧ (f n).children = n.children) :
    WellFormed (modifyNode v i f) := by
  intro j n' hj
  obtain ⟨n, hn, hcase⟩ := getIdx_modifyNode_inv f hj
  have hnc : n'.children = n.children := by
    rcases hcase with h | ⟨_, h⟩
    · rw [h]
    · rw [h]
      exact (hf n).2
  obtain ⟨hedges, hnd⟩ := hwf j n hn
  constructor
  · intro p hp
    rw [hnc] at hp
    obtain ⟨h1, h2, h3⟩ := hedges p hp
    refine ⟨h1, by rw [modifyNode_length]; exact h2, ?_⟩
    intro m hm
    obtain ⟨m0, hm0, hmcase⟩ := getIdx_modifyNode_inv f hm
    have : m.name = m0.name := by
      rcases hmcase with h | ⟨_, h⟩
      · rw [h]
      · rw [h]
        exact (hf m0).1
    rw [this]
    exact h3 m0 hm0
  · rw [hnc]
    exact hnd

/-! Facts about `_push` as a whole. -/

theorem _push_mount_points (v : Vfs) (m : Nat) (segs : List String) (md : Metadata) :
    (_push v m segs md).1.mount_points = v.mount_points := by
  unfold _push
  rw [modifyNode_mount_points, pushWalk_mount_points]

theorem _push_t (v : Vfs) (m : Nat) (segs : List String) (md : Metadata) :
    (_push v m segs md).2 = (pushWalk v m segs).2 := by
  unfold _push
  rfl

theorem _push_nodes_length (v : Vfs) (m : Nat) (segs : List String) (md : Metadata) :
    (_push v m segs md).1.nodes.length = (pushWalk v m segs).1.nodes.length := by
  unfold _push
  rw [modifyNode_length]

theorem _push_childOf (v : Vfs) (m : Nat) (segs : List String) (md : Metadata) (a : Nat) (b : String) :
    childOf (_push v m segs md).1 a b = childOf (pushWalk v m segs).1 a b := by
  simp only [_push]
  exact @childOf_modifyNode
    (fun n => { n with metadata := objAssign (objAssign n.metadata [("type", MetaVal.vstr "file")]) md })
    (fun n => rfl) (pushWalk v m segs).1 (pushWalk v m segs).2 a b

theorem _push_wf {v : Vfs} {m : Nat} (segs : List String) (md : Metadata) (hwf : WellFormed v)
    (hm : m < v.nodes.length) : WellFormed (_push v m segs md).1 := by
  unfold _push
  exact wf_modify_preserving (pushWalk_wf segs hwf hm) (fun n => ⟨rfl, rfl⟩)

theorem _push_establishes {v : Vfs} {m : Nat} (segs : List String) (md : Metadata)
    (hwf : WellFormed v) (hm : m < v.nodes.length) :
    openWalk (_push v m segs md).1 m segs = some (_push v m segs md).2 ∧
      (_push v m segs md).2 < (_push v m segs md).1.nodes.length := by
  obtain ⟨h1, h2⟩ := pushWalk_establishes segs hwf hm
  refine ⟨?_, by rw [_push_nodes_length, _push_t]; exact h2⟩
  rw [_push_t]
  rw [openWalk_congr (fun a b => _push_childOf v m segs md a b) m segs]
  exact h1

theorem _push_terminal {v : Vfs} {m : Nat} (segs : List String) (md : Metadata)
    (hwf : WellFormed v) (hm : m < v.nodes.length) :
    ∃ n, getIdx (pushWalk v m segs).1.nodes (_push v m segs md).2 = some n ∧
      getIdx (_push v m segs md).1.nodes (_push v m segs md).2 =
        some { n with metadata := objAssign (objAssign n.metadata [("type", MetaVal.vstr "file")]) md } := by
  obtain ⟨_, h2⟩ := pushWalk_establishes segs hwf hm
  obtain ⟨n, hn⟩ := getIdx_isSome_of_lt h2
  refine ⟨n, by rw [_push_t]; exact hn, ?_⟩
  rw [_push_t]
  unfold _push
  exact getIdx_modifyNode_eq _ hn

theorem _push_other {v : Vfs} {m : Nat} (segs : List String) (md : Metadata) {i : Nat}
    (hne : i ≠ (_push v m segs md).2) :
    getIdx (_push v m segs md).1.nodes i = getIdx (pushWalk v m segs).1.nodes i := by
  rw [_push_t] at hne
  unfold _push
  exact getIdx_modifyNode_ne _ hne

/-! Soundness and completeness of the closest-handle search. -/

theorem closestAux_sound {v : Vfs} {mount : Option Nat} {segs : List String} {n : Nat}
    {h i : Nat} {tc : List String}
    (hcl : closestAux v mount segs n = some (h, i, tc)) :
    ∃ k, k ≤ n ∧ _open v mount (segs.take k) = some i ∧ getHandleAt v i = some h ∧
      tc = segs.drop k := by
  induction n with
  | zero =>
    simp only [closestAux] at hcl
    cases ho : _open v mount [] with
    | none => rw [ho] at hcl; exact Option.noConfusion hcl
    | some j =>
      rw [ho] at hcl
      have hcl' : (match getHandleAt v j with
        | some hq => some (hq, j, segs)
        | none => none) = some (h, i, tc) := hcl
      cases hh : getHandleAt v j with
      | none => rw [hh] at hcl'; exact Option.noConfusion hcl'
      | some hw =>
        rw [hh] at hcl'
        have hinj := Option.some.inj hcl'
        simp only [Prod.mk.injEq] at hinj
        obtain ⟨h1, h2, h3⟩ := hinj
        refine ⟨0, Nat.le_refl 0, by rw [List.take_zero, ho, h2], by rw [← h2, hh, h1], ?_⟩
        rw [List.drop_zero]
        exact h3.symm
  | succ m ih =>
    simp only [closestAux] at hcl
    cases ho : _open v mount (segs.take (m + 1)) with
    | none =>
      rw [ho] at hcl
      obtain ⟨k, hk, hrest⟩ := ih hcl
      exact ⟨k, Nat.le_succ_of_le hk, hrest⟩
    | some j =>
      rw [ho] at hcl
      have hcl' : (match getHandleAt v j with
        | some hq => some (hq, j, segs.drop (m + 1))
        | none => closestAux v mount segs m) = some (h, i, tc) := hcl
      cases hh : getHandleAt v j with
      | none =>
        rw [hh] at hcl'
        obtain ⟨k, hk, hrest⟩ := ih hcl'
        exact ⟨k, Nat.le_succ_of_le hk, hrest⟩
      | some hw =>
        rw [hh] at hcl'
        have hinj := Option.some.inj hcl'
        simp only [Prod.mk.injEq] at hinj
        obtain ⟨h1, h2, h3⟩ := hinj
        exact ⟨m + 1, Nat.le_refl _, by rw [ho, h2], by rw [← h2, hh, h1], h3.symm⟩

theorem closestAux_none {v : Vfs} {mount : Option Nat} {segs : List String} {n : Nat}
    (hall : ∀ k, k ≤ n → noHandleB v mount (segs.take k) = true) :
    closestAux v mount segs n = none := by
  induction n with
  | zero =>
    have h0 := hall 0 (Nat.le_refl 0)
    unfold noHandleB at h0
    rw [List.take_zero] at h0
    simp only [closestAux]
    cases ho : _open v mount [] with
    | none => rfl
    | some j =>
      rw [ho] at h0
      have h0' : (getHandleAt v j).isNone = true := h0
      show (match getHandleAt v j with
        | some hq => some (hq, j, segs)
        | none => none) = none
      cases hh : getHandleAt v j with
      | none => rfl
      | some hw => rw [hh] at h0'; simp at h0'
  | succ m ih =>
    have hm := hall (m + 1) (Nat.le_refl _)
    unfold noHandleB at hm
    simp only [closestAux]
    cases ho : _open v mount (segs.take (m + 1)) with
    | none => exact ih (fun k hk => hall k (Nat.le_succ_of_le hk))
    | some j =>
      rw [ho] at hm
      have hm' : (getHandleAt v j).isNone = true := hm
      show (match getHandleAt v j with
        | some hq => some (hq, j, segs.drop (m + 1))
        | none => closestAux v mount segs m) = none
      cases hh : getHandleAt v j with
      | none => exact ih (fun k hk => hall k (Nat.le_succ_of_le hk))
      | some hw => rw [hh] at hm'; simp at hm'

/-! The handle-attachment loop. -/

theorem getIdx_mem {α : Type} {l : List α} {i : Nat} {a : α} (h : getIdx l i = some a) :
    a ∈ l := by
  induction l generalizing i with
  | nil => simp [getIdx] at h
  | cons x xs ih =>
    cases i with
    | zero =>
      have hx : some x = some a := h
      rw [← Option.some.inj hx]
      exact List.mem_cons_self x xs
    | succ n => exact List.mem_cons_of_mem x (ih h)

theorem chainNodes_gt {v : Vfs} (hwf : WellFormed v) {c : Nat} {segs : List String}
    {L : List Nat} (hc : chainNodes v c segs = some L) : ∀ x ∈ L, c < x := by
  induction segs generalizing c L with
  | nil =>
    simp only [chainNodes] at hc
    rw [← Option.some.inj hc]
    simp
  | cons s rest ih =>
    simp only [chainNodes] at hc
    cases hch : childOf v c s with
    | none => rw [hch] at hc; exact Option.noConfusion hc
    | some j =>
      rw [hch] at hc
      have hc' : Option.map (fun l => j :: l) (chainNodes v j rest) = some L := hc
      cases hcr : chainNodes v j rest with
      | none =>
        rw [hcr] at hc'
        exact Option.noConfusion hc'
      | some L' =>
        rw [hcr] at hc'
        have hc2 : some (j :: L') = some L := hc'
        have hcj := childOf_gt_of_wf hwf hch
        rw [← Option.some.inj hc2]
        intro x hx
        simp only [List.mem_cons] at hx
        rcases hx with hx | hx
        · rw [hx]; exact hcj
        · exact Nat.lt_trans hcj (ih hcr x hx)

theorem chainNodes_lt_len {v : Vfs} (hwf : WellFormed v) {c : Nat} {segs : List String}
    {L : List Nat} (hc : chainNodes v c segs = some L) : ∀ x ∈ L, x < v.nodes.length := by
  induction segs generalizing c L with
  | nil =>
    simp only [chainNodes] at hc
    rw [← Option.some.inj hc]
    simp
  | cons s rest ih =>
    simp only [chainNodes] at hc
    cases hch : childOf v c s with
    | none => rw [hch] at hc; exact Option.noConfusion hc
    | some j =>
      rw [hch] at hc
      have hc' : Option.map (fun l => j :: l) (chainNodes v j rest) = some L := hc
      cases hcr : chainNodes v j rest with
      | none => rw [hcr] at hc'; exact Option.noConfusion hc'
      | some L' =>
        rw [hcr] at hc'
        have hc2 : some (j :: L') = some L := hc'
        rw [← Option.some.inj hc2]
        intro x hx
        simp only [List.mem_cons] at hx
        rcases hx with hx | hx
        · rw [hx]; exact childOf_lt_of_wf hwf hch
        · exact ih hcr x hx

theorem chainNodes_of_openWalk {v : Vfs} {c t : Nat} {segs : List String}
    (h : openWalk v c segs = some t) :
    ∃ L, chainNodes v c segs = some L ∧ L.length = segs.length ∧
      (c :: L).getLast? = some t := by
  induction segs generalizing c with
  | nil =>
    refine ⟨[], rfl, rfl, ?_⟩
    simpa using (Option.some.inj h)
  | cons s rest ih =>
    simp only [openWalk] at h
    cases hch : childOf v c s with
    | none => rw [hch] at h; exact absurd h (by simp)
    | some j =>
      rw [hch] at h
      obtain ⟨L', hL', hlen, hlast⟩ := ih h
      refine ⟨j :: L', ?_, by simp [hlen], ?_⟩
      · show ((childOf v c s).bind fun x => Option.map (fun l => x :: l) (chainNodes v x rest)) = some (j :: L')
        rw [hch]
        show Option.map (fun l => j :: l) (chainNodes v j rest) = some (j :: L')
        rw [hL']
        rfl
      · rw [← hlast]
        rfl

theorem attachLoop_spec (env : Nat → String → Nat) {v : Vfs} {h node : Nat}
    {segs : List String} {L : List Nat}
    (hwf : WellFormed v)
    (hnode : node < v.nodes.length)
    (hch : chainNodes v node segs = some L)
    (hh : ∃ nn, getIdx v.nodes node = some nn ∧
      alLookup "directoryHandle" nn.metadata = some (MetaVal.vhandle h)) :
    ∃ t v', attachLoop env v h node segs = (JsRet.node t, v', chainCalls env h segs) ∧
      (node :: L).getLast? = some t ∧
      v'.nodes.length = v.nodes.length ∧
      v'.node_id = v.node_id ∧
      v'.mount_points = v.mount_points ∧
      (∀ a b, childOf v' a b = childOf v a b) ∧
      (∀ i, i ∉ L → getIdx v'.nodes i = getIdx v.nodes i) ∧
      (∀ k j hv, getIdx L k = some j → getIdx (chainHandles env h segs) k = some hv →
        ∃ n0 n1, getIdx v.nodes j = some n0 ∧ getIdx v'.nodes j = some n1 ∧
          n1.metadata = setKey n0.metadata "directoryHandle" (MetaVal.vhandle hv)) ∧
      (∃ nt, getIdx v'.nodes t = some nt ∧
        alLookup "directoryHandle" nt.metadata =
          some (MetaVal.vhandle (List.foldl env h segs))) := by
  induction segs generalizing v h node L with
  | nil =>
    simp only [chainNodes] at hch
    have hL : L = [] := (Option.some.inj hch).symm
    subst hL
    obtain ⟨nn, hnn, hnh⟩ := hh
    exact ⟨node, v, rfl, rfl, rfl, rfl, rfl, fun a b => rfl, fun i _ => rfl,
      fun k j hv h1 h2 => absurd h1 (by simp [getIdx]),
      ⟨nn, hnn, hnh⟩⟩
  | cons p ps ih =>
    simp only [chainNodes] at hch
    cases hcp : childOf v node p with
    | none => rw [hcp] at hch; exact Option.noConfusion hch
    | some j =>
      rw [hcp] at hch
      have hch2 : Option.map (fun l => j :: l) (chainNodes v j ps) = some L := hch
      cases hcr : chainNodes v j ps with
      | none => rw [hcr] at hch2; exact Option.noConfusion hch2
      | some L' =>
        rw [hcr] at hch2
        have hch3 : some (j :: L') = some L := hch2
        have hLval : L = j :: L' := (Option.some.inj hch3).symm
        subst hLval
        have hj : j < v.nodes.length := childOf_lt_of_wf hwf hcp
        obtain ⟨n0, hn0⟩ := getIdx_isSome_of_lt hj
        -- the state after attaching the new handle to node `j`
        set nh := env h p with hnh
        set v1 := modifyNode v j (fun n =>
          { n with metadata := setKey n.metadata "directoryHandle" (MetaVal.vhandle nh) }) with hv1
        have hwf1 : WellFormed v1 := wf_modify_preserving hwf (fun n => ⟨rfl, rfl⟩)
        have hchild1 : ∀ a b, childOf v1 a b = childOf v a b := by
          intro a b
          rw [hv1]
          exact @childOf_modifyNode
            (fun n => { n with metadata := setKey n.metadata "directoryHandle" (MetaVal.vhandle nh) })
            (fun n => rfl) v j a b
        have hlen1 : v1.nodes.length = v.nodes.length := by
          rw [hv1]
          exact modifyNode_length v j _
        have hcr1 : chainNodes v1 j ps = some L' := by
          rw [chainNodes_congr hchild1 j ps]
          exact hcr
        have hj1 : j < v1.nodes.length := by rw [hlen1]; exact hj
        have hh1 : ∃ nn, getIdx v1.nodes j = some nn ∧
            alLookup "directoryHandle" nn.metadata = some (MetaVal.vhandle nh) := by
          refine ⟨_, by rw [hv1]; exact getIdx_modifyNode_eq _ hn0, ?_⟩
          exact alLookup_setKey_self n0.metadata "directoryHandle" (MetaVal.vhandle nh)
        obtain ⟨t, v2, hrun, hlast, hl2, hid2, hm2, hchild2, hframe2, hattach2, hterm2⟩ :=
          ih hwf1 hj1 hcr1 hh1
        have hgt : ∀ x ∈ L', j < x := chainNodes_gt hwf1 hcr1
        refine ⟨t, v2, ?_, ?_, ?_, ?_, ?_, ?_, ?_, ?_, ?_⟩
        · simp only [attachLoop, hcp]
          rw [← hnh, ← hv1, hrun]
          rfl
        · rw [← hlast]
          rfl
        · rw [hl2, hlen1]
        · rw [hid2, hv1, modifyNode_node_id]
        · rw [hm2, hv1, modifyNode_mount_points]
        · intro a b
          rw [hchild2 a b, hchild1 a b]
        · intro i hi
          simp only [List.mem_cons] at hi
          push_neg at hi
          rw [hframe2 i hi.2, hv1, getIdx_modifyNode_ne _ hi.1]
        · intro k x hv hLk hHk
          cases k with
          | zero =>
            have hxj : x = j := by
              have hx0 : some j = some x := hLk
              exact (Option.some.inj hx0).symm
            subst hxj
            have hvnh : hv = nh := by
              simp only [chainHandles] at hHk
              have hx0 : some (env h p) = some hv := hHk
              rw [hnh]
              exact (Option.some.inj hx0).symm
            subst hvnh
            refine ⟨n0, { n0 with metadata := setKey n0.metadata "directoryHandle" (MetaVal.vhandle nh) },
              hn0, ?_, rfl⟩
            rw [hframe2 x (fun hx => Nat.lt_irrefl x (hgt x hx)), hv1]
            exact getIdx_modifyNode_eq _ hn0
          | succ m =>
            have hLk' : getIdx L' m = some x := hLk
            have hHk' : getIdx (chainHandles env nh ps) m = some hv := hHk
            obtain ⟨m0, m1, hm0, hm1, hmm⟩ := hattach2 m x hv hLk' hHk'
            refine ⟨m0, m1, ?_, hm1, hmm⟩
            have hxj : x ≠ j := fun hx =>
              Nat.lt_irrefl j (hx ▸ hgt x (getIdx_mem hLk'))
            rw [← hm0, hv1, getIdx_modifyNode_ne _ hxj]
        · obtain ⟨nt, hnt, hh⟩ := hterm2
          exact ⟨nt, hnt, by rw [hh]; rfl⟩

/-! Preservation of the id discipline by every operation. -/

theorem goodIds_init : GoodIds initVfs := by
  refine ⟨rfl, ?_⟩
  intro i n h
  cases i with
  | zero =>
    have hx : some ({ name := "", metadata := [("id", MetaVal.vnat 0)],
                      parent := none, children := [] } : VfsNode) = some n := h
    rw [← Option.some.inj hx]
    rfl
  | succ m => exact absurd h (by simp [initVfs, getIdx])

theorem alLookup_objAssign_no_id (md src : Metadata) (k : String)
    (hk : alLookup k src = none) :
    alLookup k (objAssign md src) = alLookup k md := by
  apply alLookup_objAssign_not_mem
  intro p hp hpk
  exact alLookup_none_not_mem hk (by rw [← hpk]; exact List.mem_map_of_mem Prod.fst hp)

theorem goodIds_modify {v : Vfs} {i : Nat} {g : VfsNode → Metadata}
    (hg : ∀ n, alLookup "id" (g n) = alLookup "id" n.metadata) (h : GoodIds v) :
    GoodIds (modifyNode v i (fun n => { n with metadata := g n })) := by
  refine ⟨by rw [modifyNode_node_id, modifyNode_length]; exact h.1, ?_⟩
  intro j n' hj
  obtain ⟨n, hn, hcase⟩ := getIdx_modifyNode_inv _ hj
  rcases hcase with hc | ⟨_, hc⟩
  · rw [hc]
    exact h.2 j n hn
  · rw [hc]
    show alLookup "id" (g n) = some (MetaVal.vnat j)
    rw [hg n]
    exact h.2 j n hn

theorem goodIds_pushStep {v : Vfs} (c : Nat) (s : String) (h : GoodIds v) :
    GoodIds (pushStep v c s) := by
  refine ⟨by rw [pushStep_node_id, pushStep_length]; exact congrArg Nat.succ h.1, ?_⟩
  intro j n' hj
  simp only [pushStep] at hj
  obtain ⟨n, hn, hcase⟩ := getIdx_modifyNode_inv _ hj
  have hnmd : alLookup "id" n'.metadata = alLookup "id" n.metadata := by
    rcases hcase with hc | ⟨_, hc⟩
    · rw [hc]
    · rw [hc]
  rw [hnmd]
  have hn' : getIdx (v.nodes ++ [freshNode v c s]) j = some n := hn
  rcases Nat.lt_or_ge j v.nodes.length with hjl | hjl
  · rw [getIdx_append_left [freshNode v c s] hjl] at hn'
    exact h.2 j n hn'
  · have hjlen := getIdx_lt hn'
    rw [List.length_append] at hjlen
    have hje : j = v.nodes.length := by simp at hjlen; omega
    subst hje
    rw [getIdx_append_self] at hn'
    rw [← Option.some.inj hn']
    show some (MetaVal.vnat v.node_id) = some (MetaVal.vnat v.nodes.length)
    rw [h.1]

theorem goodIds_pushWalk {v : Vfs} (c : Nat) (segs : List String) (h : GoodIds v) :
    GoodIds (pushWalk v c segs).1 := by
  induction segs generalizing v c with
  | nil => exact h
  | cons s rest ih =>
    cases hch : childOf v c s with
    | some j => simpa only [pushWalk, hch] using ih j h
    | none =>
      simp only [pushWalk, hch]
      exact ih v.nodes.length (goodIds_pushStep c s h)

theorem goodIds_push {v : Vfs} (m : Nat) (segs : List String) (md : Metadata)
    (hmd : alLookup "id" md = none) (h : GoodIds v) :
    GoodIds (_push v m segs md).1 := by
  unfold _push
  apply goodIds_modify _ (goodIds_pushWalk m segs h)
  intro n
  rw [alLookup_objAssign_no_id _ _ _ hmd, alLookup_objAssign_no_id]
  rw [alLookup, if_neg (by simp), alLookup]

theorem goodIds_attachLoop (env : Nat → String → Nat) {v : Vfs} (h node : Nat)
    (segs : List String) (hg : GoodIds v) :
    GoodIds (attachLoop env v h node segs).2.1 := by
  induction segs generalizing v h node with
  | nil => exact hg
  | cons p ps ih =>
    simp only [attachLoop]
    cases hch : childOf v node p with
    | none => exact hg
    | some j =>
      apply ih
      apply goodIds_modify _ hg
      intro n
      exact alLookup_setKey_ne n.metadata _ (by simp)

theorem goodIds_mkdir (env : Nat → String → Nat) (v : Vfs) (path : String) (hg : GoodIds v) :
    GoodIds (mkdir env v path).2.1 := by
  unfold mkdir
  cases hgm : get_mount v path with
  | mk mp rest =>
    cases mp with
    | none =>
      simp only
      exact goodIds_push 0 _ _ (by simp [alLookup]) hg
    | some mp =>
      simp only
      by_cases hty : mp.mtype = "local"
      · rw [if_pos hty]
        unfold _mkdir_local
        cases hcl : _closest_directory_handler_local v mp.root rest with
        | none => exact hg
        | some hnr =>
          obtain ⟨hh, node, rest2⟩ := hnr
          exact goodIds_attachLoop env hh node rest2 (goodIds_push node rest2 _ (by simp [alLookup]) hg)
      · rw [if_neg hty]
        exact hg

theorem goodIds_write_file (v : Vfs) (path fn ct : String) (hint : Option String)
    (hg : GoodIds v) : GoodIds (write_file v path fn ct hint).2.1 := by
  unfold write_file
  cases hgm : get_mount v path with
  | mk mp rest =>
    cases mp with
    | none =>
      simp only
      exact goodIds_push 0 _ _ (by simp [alLookup]) hg
    | some mp =>
      simp only
      by_cases hty : mp.mtype = "local"
      · rw [if_pos hty]
        unfold _write_file_local
        cases hcl : _closest_directory_handler_local v mp.root rest with
        | none => exact hg
        | some hnr =>
          obtain ⟨hh, node, rest2⟩ := hnr
          exact goodIds_push node rest2 _ (by simp [alLookup]) hg
      · rw [if_neg hty]
        exact hg

theorem goodIds_mount_nodes {v : Vfs} (mps : List MountPoint) (hg : GoodIds v) :
    GoodIds { v with mount_points := v.mount_points ++ mps } :=
  ⟨hg.1, hg.2⟩

theorem goodIds_mount_local_file (res : Option FileBlob) (v : Vfs) (path : String)
    (hg : GoodIds v) : GoodIds (mount_local_file res v path).2 := by
  unfold mount_local_file
  cases ho : openPath v path with
  | none => exact hg
  | some r =>
    cases res with
    | none => exact hg
    | some b =>
      simp only
      exact goodIds_mount_nodes _ (goodIds_push r _ _ (by simp [alLookup]) hg)

theorem goodIds_mountFolderLoop {v : Vfs} (r : Nat) (blobs : List FolderBlob)
    (hg : GoodIds v) : GoodIds (mountFolderLoop v r blobs).1 := by
  induction blobs generalizing v with
  | nil => exact hg
  | cons b bs ih =>
    simp only [mountFolderLoop]
    cases hp : (getNode? (_push v r (normalize_path b.relativePath)
        [("blob", MetaVal.vblob b.name b.content "local")]).1
        (_push v r (normalize_path b.relativePath)
        [("blob", MetaVal.vblob b.name b.content "local")]).2).bind (fun n => n.parent) with
    | none => exact goodIds_push r _ _ (by simp [alLookup]) hg
    | some p =>
      apply ih
      apply goodIds_modify _ (goodIds_push r _ _ (by simp [alLookup]) hg)
      intro n
      exact alLookup_setKey_ne n.metadata _ (by simp)

theorem goodIds_congr {v w : Vfs} (hn : w.nodes = v.nodes) (hi : w.node_id = v.node_id)
    (h : GoodIds v) : GoodIds w := by
  constructor
  · rw [hn, hi]
    exact h.1
  · rw [hn]
    exact h.2

theorem mountFolderFinish_state (v1 : Vfs) (r : Nat) (path : String) (blobs : List FolderBlob) :
    (mountFolderFinish v1 r path blobs).2.nodes = v1.nodes ∧
      (mountFolderFinish v1 r path blobs).2.node_id = v1.node_id := by
  unfold mountFolderFinish
  cases blobs.getLast? with
  | none => exact ⟨rfl, rfl⟩
  | some lastb => exact ⟨rfl, rfl⟩

theorem goodIds_mount_local_folder (blobs : List FolderBlob) (v : Vfs) (path : String)
    (hg : GoodIds v) : GoodIds (mount_local_folder blobs v path).2 := by
  unfold mount_local_folder
  cases ho : openPath v path with
  | none => exact hg
  | some r =>
    simp only
    have hg1 : GoodIds (mountFolderLoop v r blobs).1 := goodIds_mountFolderLoop r blobs hg
    by_cases hb : (mountFolderLoop v r blobs).2 = true
    · rw [if_pos hb]
      exact hg1
    · rw [if_neg hb]
      obtain ⟨hn, hi⟩ := mountFolderFinish_state (mountFolderLoop v r blobs).1 r path blobs
      exact goodIds_congr hn hi hg1

theorem goodIds_runOp (v : Vfs) (op : Op) (hg : GoodIds v) : GoodIds (runOp v op) := by
  cases op with
  | mkdirOp env p => exact goodIds_mkdir env v p hg
  | writeFileOp p f c h => exact goodIds_write_file v p f c h hg
  | mountFileOp res p => exact goodIds_mount_local_file res v p hg
  | mountFolderOp bs p => exact goodIds_mount_local_folder bs v p hg
  | openOp p => exact hg
  | lsOp p => exact hg

theorem goodIds_runOps (ops : List Op) : GoodIds (runOps ops) := by
  unfold runOps
  have : ∀ v, GoodIds v → GoodIds (ops.foldl runOp v) := by
    induction ops with
    | nil => exact fun v h => h
    | cons op rest ih =>
      intro v h
      exact ih (runOp v op) (goodIds_runOp v op h)
  exact this initVfs goodIds_init

/-! Facts about the mount-table scan. -/

theorem isPrefixOf_append_drop {l s : List Char} (h : l.isPrefixOf s = true) :
    l ++ s.drop l.length = s := by
  induction l generalizing s with
  | nil => simp
  | cons a as ih =>
    cases s with
    | nil => simp [List.isPrefixOf] at h
    | cons b bs =>
      rw [List.isPrefixOf, Bool.and_eq_true] at h
      have hab : a = b := by
        have := h.1
        simpa using this
      rw [hab]
      simp only [List.length_cons, List.drop_succ_cons, List.cons_append, List.cons.injEq]
      exact ⟨trivial, ih h.2⟩

theorem get_mount_scan_some {path : String} {mps : List MountPoint} {mp : MountPoint}
    {rest : String} (h : get_mount_scan path mps = (some mp, rest)) :
    ∃ k, getIdx mps k = some mp ∧ mp.path.data.isPrefixOf path.data = true ∧
      mp.path ++ rest = path ∧
      ∀ j mpj, j < k → getIdx mps j = some mpj →
        mpj.path.data.isPrefixOf path.data = false := by
  induction mps with
  | nil =>
    unfold get_mount_scan at h
    exact absurd (congrArg Prod.fst h) (by simp)
  | cons m ms ih =>
    unfold get_mount_scan at h
    by_cases hm : m.path.data.isPrefixOf path.data = true
    · rw [if_pos hm] at h
      have h1 : m = mp := by
        have := congrArg Prod.fst h
        simpa using this
      have h2 : ({ data := path.data.drop m.path.data.length } : String) = rest :=
        congrArg Prod.snd h
      subst h1
      refine ⟨0, rfl, hm, ?_, ?_⟩
      · rw [← h2]
        show ({ data := m.path.data ++ path.data.drop m.path.data.length } : String) = path
        rw [isPrefixOf_append_drop hm]
      · intro j mpj hj hgj
        exact absurd hj (by omega)
    · have hm' : m.path.data.isPrefixOf path.data = false := by
        cases hx : m.path.data.isPrefixOf path.data with
        | false => rfl
        | true => exact absurd hx hm
      rw [if_neg hm] at h
      obtain ⟨k, hk1, hk2, hk3, hk4⟩ := ih h
      refine ⟨k + 1, hk1, hk2, hk3, ?_⟩
      intro j mpj hj hgj
      cases j with
      | zero =>
        have : m = mpj := Option.some.inj hgj
        rw [← this]
        exact hm'
      | succ j' => exact hk4 j' mpj (by omega) hgj

theorem get_mount_scan_none {path : String} {mps : List MountPoint}
    (h : ∀ mp ∈ mps, mp.path.data.isPrefixOf path.data = false) :
    get_mount_scan path mps = (none, path) := by
  induction mps with
  | nil => rfl
  | cons m ms ih =>
    unfold get_mount_scan
    rw [if_neg (by rw [h m (by simp)]; simp)]
    exact ih (fun mp hmp => h mp (by simp [hmp]))

/-! Segmentless paths denote the root. -/

theorem splitSlash_all_slash {cs : List Char} (h : ∀ c ∈ cs, c = '/') :
    ∀ l ∈ splitSlashAux cs, l = [] := by
  induction cs with
  | nil =>
    intro l hl
    simp only [splitSlashAux, List.mem_singleton] at hl
    exact hl
  | cons c cs ih =>
    intro l hl
    have hc : c = '/' := h c (by simp)
    simp only [splitSlashAux] at hl
    cases hx : splitSlashAux cs with
    | nil =>
      rw [hx] at hl
      simpa using hl
    | cons seg rest =>
      rw [hx] at hl
      have hl' : l ∈ (if c = '/' then [] :: seg :: rest else (c :: seg) :: rest) := hl
      rw [if_pos hc] at hl'
      replace hl := hl'
      simp only [List.mem_cons] at hl
      rcases hl with hl | hl | hl
      · exact hl
      · exact ih (fun d hd => h d (by simp [hd])) l (by rw [hx, hl]; exact List.mem_cons_self seg rest)
      · exact ih (fun d hd => h d (by simp [hd])) l (by rw [hx]; exact List.mem_cons_of_mem seg hl)

theorem normalize_all_slash {s : String} (h : ∀ c ∈ s.data, c = '/') :
    normalize_path s = [] := by
  unfold normalize_path
  have hf : (splitSlashAux s.data).filter (fun l => l.length > 0) = [] := by
    rw [List.filter_eq_nil]
    intro l hl
    rw [splitSlash_all_slash h l hl]
    simp
  rw [hf]
  rfl

/-! Enumeration order of child keys. -/

theorem jsKeys_no_index {children : List (String × Nat)}
    (h : ∀ k ∈ children.map Prod.fst, isArrayIndexKey k = false) :
    jsKeys children = children.map Prod.fst := by
  simp only [jsKeys, sortIndexKeys]
  have h1 : (children.map Prod.fst).filter (fun s => isArrayIndexKey s) = [] := by
    rw [List.filter_eq_nil]
    intro k hk
    rw [h k hk]
    simp
  have h2 : (children.map Prod.fst).filter (fun s => !isArrayIndexKey s) =
      children.map Prod.fst := by
    rw [List.filter_eq_self]
    intro k hk
    rw [h k hk]
    rfl
  rw [h1, h2]
  simp

theorem alLookup_isSome_of_mem {β : Type} {k : String} {l : List (String × β)}
    (h : k ∈ l.map Prod.fst) : ∃ b, alLookup k l = some b := by
  induction l with
  | nil => simp at h
  | cons p ps ih =>
    by_cases hp : p.1 = k
    · exact ⟨p.2, by rw [alLookup, if_pos hp]⟩
    · simp only [List.map_cons, List.mem_cons] at h
      rcases h with h | h
      · exact absurd h.symm hp
      · obtain ⟨b, hb⟩ := ih h
        exact ⟨b, by rw [alLookup, if_neg hp]; exact hb⟩

theorem filterMap_map_total {α β : Type} {f : α → Option β} {g : β → α} {l : List α}
    (h : ∀ a ∈ l, ∃ b, f a = some b ∧ g b = a) :
    (l.filterMap f).map g = l := by
  induction l with
  | nil => rfl
  | cons a as ih =>
    obtain ⟨b, hb, hg⟩ := h a (by simp)
    rw [List.filterMap_cons, hb]
    simp only [List.map_cons]
    rw [hg, ih (fun x hx => h x (by simp [hx]))]

theorem childrenList_names {v : Vfs} {i : Nat} {n : VfsNode} (hwf : WellFormed v)
    (hn : getIdx v.nodes i = some n)
    (hni : ∀ k ∈ n.children.map Prod.fst, isArrayIndexKey k = false) :
    (childrenList v i).map (fun m => m.name) = n.children.map Prod.fst := by
  unfold childrenList getNode?
  rw [hn]
  show ((jsKeys n.children).filterMap
    (fun k => (alLookup k n.children).bind (fun j => getIdx v.nodes j))).map (fun m => m.name) =
    n.children.map Prod.fst
  rw [jsKeys_no_index hni]
  apply filterMap_map_total
  intro k hk
  obtain ⟨j, hj⟩ := alLookup_isSome_of_mem hk
  have hpair := alLookup_mem hj
  obtain ⟨hedge, _⟩ := hwf i n hn
  obtain ⟨_, hlt, hname⟩ := hedge (k, j) hpair
  obtain ⟨m, hm⟩ := getIdx_isSome_of_lt hlt
  refine ⟨m, ?_, hname m hm⟩
  rw [hj]
  exact hm

/-! Directory-handle frame of `_push`. -/

theorem handle_objAssign (md0 md : Metadata) (hmd : alLookup "directoryHandle" md = none) :
    alLookup "directoryHandle"
      (objAssign (objAssign md0 [("type", MetaVal.vstr "file")]) md) =
    alLookup "directoryHandle" md0 := by
  rw [alLookup_objAssign_no_id _ _ _ hmd, alLookup_objAssign_no_id]
  rw [alLookup, if_neg (by simp), alLookup]

theorem _push_handle_frame_old {v : Vfs} {m : Nat} {segs : List String} {md : Metadata}
    (hwf : WellFormed v) (hm : m < v.nodes.length)
    (hmd : alLookup "directoryHandle" md = none) {i : Nat} {n n' : VfsNode}
    (hn : getIdx v.nodes i = some n)
    (hn' : getIdx (_push v m segs md).1.nodes i = some n') :
    alLookup "directoryHandle" n'.metadata = alLookup "directoryHandle" n.metadata := by
  obtain ⟨nw, hnw, _, _, hwmd, _, _⟩ := (pushWalk_extends v m segs).2 i n hn
  by_cases hit : i = (_push v m segs md).2
  · subst hit
    obtain ⟨nt, hnt, hnt'⟩ := _push_terminal segs md hwf hm
    have hnteq : nw = nt := by
      rw [hnw] at hnt
      exact Option.some.inj hnt
    rw [hnt'] at hn'
    rw [← Option.some.inj hn']
    show alLookup "directoryHandle"
      (objAssign (objAssign nt.metadata [("type", MetaVal.vstr "file")]) md) =
      alLookup "directoryHandle" n.metadata
    rw [handle_objAssign _ _ hmd, ← hnteq, hwmd]
  · rw [_push_other segs md hit, hnw] at hn'
    rw [← Option.some.inj hn', hwmd]

theorem _push_handle_frame_new {v : Vfs} {m : Nat} {segs : List String} {md : Metadata}
    (hwf : WellFormed v) (hm : m < v.nodes.length)
    (hmd : alLookup "directoryHandle" md = none) {i : Nat} {n' : VfsNode}
    (hle : v.nodes.length ≤ i)
    (hn' : getIdx (_push v m segs md).1.nodes i = some n') :
    alLookup "directoryHandle" n'.metadata = none := by
  by_cases hit : i = (_push v m segs md).2
  · subst hit
    obtain ⟨nt, hnt, hnt'⟩ := _push_terminal segs md hwf hm
    obtain ⟨k, hk⟩ := pushWalk_new v m segs _ nt hle hnt
    rw [hnt'] at hn'
    rw [← Option.some.inj hn']
    show alLookup "directoryHandle"
      (objAssign (objAssign nt.metadata [("type", MetaVal.vstr "file")]) md) = none
    rw [handle_objAssign _ _ hmd, hk]
    rw [alLookup, if_neg (by simp), alLookup, if_neg (by simp), alLookup]
  · rw [_push_other segs md hit] at hn'
    obtain ⟨k, hk⟩ := pushWalk_new v m segs i n' hle hn'
    rw [hk]
    rw [alLookup, if_neg (by simp), alLookup, if_neg (by simp), alLookup]

/-! Dispatch equations for the façade operations. -/

theorem mkdir_local_eq {v : Vfs} {path rest : String} {mp : MountPoint}
    (env : Nat → String → Nat) (hgm : get_mount v path = (some mp, rest))
    (hty : mp.mtype = "local") :
    mkdir env v path = _mkdir_local env v mp rest := by
  unfold mkdir
  rw [hgm]
  show (if mp.mtype = "local" then _mkdir_local env v mp rest else (JsRet.undef, v, [])) =
    _mkdir_local env v mp rest
  rw [if_pos hty]

theorem mkdir_memfs_eq {v : Vfs} {path rest : String}
    (env : Nat → String → Nat) (hgm : get_mount v path = (none, rest)) :
    mkdir env v path =
      (JsRet.node (_mkdir_memfs v 0 rest).2, (_mkdir_memfs v 0 rest).1, []) := by
  unfold mkdir
  rw [hgm]

theorem write_file_local_eq {v : Vfs} {path rest : String} {mp : MountPoint}
    (fn ct : String) (hint : Option String) (hgm : get_mount v path = (some mp, rest))
    (hty : mp.mtype = "local") :
    write_file v path fn ct hint =
      _write_file_local v mp rest (MetaVal.vblob fn ct (ctypeOf hint)) := by
  unfold write_file
  rw [hgm]
  show (if mp.mtype = "local" then _write_file_local v mp rest _ else (JsRet.undef, v, [])) = _
  rw [if_pos hty]

theorem write_file_memfs_eq {v : Vfs} {path rest : String}
    (fn ct : String) (hint : Option String) (hgm : get_mount v path = (none, rest)) :
    write_file v path fn ct hint =
      (JsRet.node (_write_file_memfs v 0 rest (MetaVal.vblob fn ct (ctypeOf hint))).2,
        (_write_file_memfs v 0 rest (MetaVal.vblob fn ct (ctypeOf hint))).1, []) := by
  unfold write_file
  rw [hgm]

theorem _mkdir_local_found {env : Nat → String → Nat} {v : Vfs} {mp : MountPoint}
    {path : String} {h node : Nat} {rest : List String}
    (hcl : _closest_directory_handler_local v mp.root path = some (h, node, rest)) :
    _mkdir_local env v mp path =
      attachLoop env (_push v node rest [("type", MetaVal.vstr "folder")]).1 h node rest := by
  unfold _mkdir_local
  rw [hcl]

theorem _mkdir_local_notfound {env : Nat → String → Nat} {v : Vfs} {mp : MountPoint}
    {path : String}
    (hcl : _closest_directory_handler_local v mp.root path = none) :
    _mkdir_local env v mp path = (JsRet.nullv, v, []) := by
  unfold _mkdir_local
  rw [hcl]

theorem _write_file_local_found {v : Vfs} {mp : MountPoint} {path : String} {blob : MetaVal}
    {h node : Nat} {rest : List String}
    (hcl : _closest_directory_handler_local v mp.root path = some (h, node, rest)) :
    _write_file_local v mp path blob =
      (JsRet.undef, (_push v node rest [("type", MetaVal.vstr "file")]).1, []) := by
  unfold _write_file_local
  rw [hcl]

theorem _write_file_local_notfound {v : Vfs} {mp : MountPoint} {path : String} {blob : MetaVal}
    (hcl : _closest_directory_handler_local v mp.root path = none) :
    _write_file_local v mp path blob = (JsRet.nullv, v, []) := by
  unfold _write_file_local
  rw [hcl]

theorem getIdx_of_mem {α : Type} {l : List α} {a : α} (h : a ∈ l) :
    ∃ k, getIdx l k = some a := by
  induction l with
  | nil => simp at h
  | cons x xs ih =>
    rcases List.mem_cons.mp h with h | h
    · exact ⟨0, by rw [h]; rfl⟩
    · obtain ⟨k, hk⟩ := ih h
      exact ⟨k + 1, hk⟩

theorem chainHandles_length (env : Nat → String → Nat) (h : Nat) (l : List String) :
    (chainHandles env h l).length = l.length := by
  induction l generalizing h with
  | nil => rfl
  | cons s ss ih => simpa [chainHandles] using ih (env h s)

/-! ## Claim theorems -/

/-- C10: `open` and `ls` applied to an empty path, `"/"`, or any string
consisting only of slashes resolve to the supplied root node itself rather
than a not-found signal: `open` returns the root node (arena index 0) and
`ls` returns the root's child names. -/
theorem c10_segmentless_resolves_to_root (v : Vfs) (s : String)
    (h : ∀ c ∈ s.data, c = '/') :
    openPath v s = some 0 ∧
      ls v s = some ((childrenList v 0).map (fun n => n.name)) := by
  have hn := normalize_all_slash h
  have ho : openPath v s = some 0 := by
    unfold openPath _open
    rw [hn]
    rfl
  refine ⟨ho, ?_⟩
  unfold ls
  rw [ho]
  rfl

/-- C10 witness: evaluated at `"//"` on a fresh instance. -/
theorem c10_witness :
    (∀ c ∈ ("//" : String).data, c = '/') ∧
      (openPath initVfs "//" = some 0 ∧
        ls initVfs "//" = some ((childrenList initVfs 0).map (fun n => n.name))) :=
  ⟨by decide, c10_segmentless_resolves_to_root initVfs "//" (by decide)⟩

/-- C3: `get_mount` scans mount points in registration order and returns
the first mount whose `path` is a raw string prefix of the query, paired
with the query minus that prefix; if no mount matches it returns the
no-mount sentinel paired with the original path.  With a mount registered
at `/docs`, `get_mount("/docs/readme")` yields that mount with `"/readme"`,
and `get_mount("/docset")` also matches it (the non-segment-aware boundary
defect is reproduced, stripping to `"et"`). -/
theorem c3_get_mount_first_raw_prefix :
    (∀ (v : Vfs) (path : String) (mp : MountPoint) (rest : String),
      get_mount v path = (some mp, rest) →
      ∃ k, getIdx v.mount_points k = some mp ∧
        mp.path.data.isPrefixOf path.data = true ∧
        mp.path ++ rest = path ∧
        ∀ j mpj, j < k → getIdx v.mount_points j = some mpj →
          mpj.path.data.isPrefixOf path.data = false) ∧
    (∀ (v : Vfs) (path : String),
      (∀ mp ∈ v.mount_points, mp.path.data.isPrefixOf path.data = false) →
      get_mount v path = (none, path)) ∧
    get_mount vDocs "/docs/readme" =
      (some { mtype := "local", path := "/docs", root := some 0 }, "/readme") ∧
    get_mount vDocs "/docset" =
      (some { mtype := "local", path := "/docs", root := some 0 }, "et") := by
  refine ⟨?_, ?_, by decide, by decide⟩
  · intro v path mp rest hgm
    exact get_mount_scan_some hgm
  · intro v path hnone
    exact get_mount_scan_none hnone

/-- C3 witness: the first-match characterization applied at the `/docs`
mount and the boundary query `/docset`. -/
theorem c3_witness :
    ∃ k, getIdx vDocs.mount_points k =
        some { mtype := "local", path := "/docs", root := some 0 } ∧
      ("/docs" : String).data.isPrefixOf ("/docset" : String).data = true ∧
      ({ mtype := "local", path := "/docs", root := some 0 } : MountPoint).path ++ "et" =
        "/docset" ∧
      ∀ j mpj, j < k → getIdx vDocs.mount_points j = some mpj →
        mpj.path.data.isPrefixOf ("/docset" : String).data = false :=
  c3_get_mount_first_raw_prefix.1 vDocs "/docset"
    { mtype := "local", path := "/docs", root := some 0 } "et" (by decide)

/-- C8 counterexample: after `mkdir("/2")` then `mkdir("/1")`, `ls("/")`
returns `["1", "2"]` although the children were created in order
`["2", "1"]` — JS own-property enumeration lists array-index-like keys in
ascending numeric order first, not in insertion order, so the claim that
`ls` always lists children in creation order is false on this input. -/
theorem c8_counterexample :
    ls (mkdir (fun _ _ => 0) (mkdir (fun _ _ => 0) initVfs "/2").2.1 "/1").2.1 "/" =
      some ["1", "2"] ∧
    (getIdx (mkdir (fun _ _ => 0) (mkdir (fun _ _ => 0) initVfs "/2").2.1 "/1").2.1.nodes 0).map
      (fun n => n.children.map Prod.fst) = some ["2", "1"] ∧
    (["1", "2"] : List String) ≠ ["2", "1"] := by
  decide

/-- C8 amended: `ls` lists the resolved node's children computed from the
current state (no snapshot), in the order the children were first created,
provided no child key is a canonical array-index string; array-index-like
keys are enumerated first in ascending numeric order per JS own-property
ordering. -/
theorem c8_ls_insertion_order (v : Vfs) (path : String) (i : Nat) (n : VfsNode)
    (hwf : WellFormed v) (ho : openPath v path = some i) (hn : getIdx v.nodes i = some n)
    (hni : ∀ k ∈ n.children.map Prod.fst, isArrayIndexKey k = false) :
    ls v path = some (n.children.map Prod.fst) := by
  unfold ls
  rw [ho]
  show some ((childrenList v i).map (fun m => m.name)) = some (n.children.map Prod.fst)
  rw [childrenList_names hwf hn hni]

/-- C8 witness: after `mkdir("/b")` then `mkdir("/a")` (non-numeric names),
`ls("/")` is exactly the creation order `["b", "a"]`. -/
theorem c8_witness :
    ls (mkdir (fun _ _ => 0) (mkdir (fun _ _ => 0) initVfs "/b").2.1 "/a").2.1 "/" =
      some (([("b", 1), ("a", 2)] : List (String × Nat)).map Prod.fst) :=
  c8_ls_insertion_order
    (mkdir (fun _ _ => 0) (mkdir (fun _ _ => 0) initVfs "/b").2.1 "/a").2.1 "/" 0
    { name := "", metadata := [("id", MetaVal.vnat 0)], parent := none,
      children := [("b", 1), ("a", 2)] }
    (by decide) (by decide) (by decide) (by decide)

/-- C5 counterexample: `write_file("/a", "note.txt", "hello")` on a fresh
instance does NOT create a node at `/a/note.txt` — that path resolves to
nothing.  Instead the node at `/a` itself becomes the file node: it carries
`type: "file"` and the blob (named `note.txt`, content `"hello"`); the
`fileName` argument only names the blob. -/
theorem c5_counterexample :
    openPath (write_file initVfs "/a" "note.txt" "hello" none).2.1 "/a/note.txt" = none ∧
    openPath (write_file initVfs "/a" "note.txt" "hello" none).2.1 "/a" = some 1 ∧
    (write_file initVfs "/a" "note.txt" "hello" none).1 = JsRet.node 1 ∧
    (getIdx (write_file initVfs "/a" "note.txt" "hello" none).2.1.nodes 1).map
      (fun n => (alLookup "type" n.metadata, alLookup "blob" n.metadata)) =
      some (some (MetaVal.vstr "file"),
        some (MetaVal.vblob "note.txt" "hello" "plain/text")) := by
  decide

/-- C5 amended: `write_file(path, fileName, content, hint)` on an unmounted
path creates or converts the node at `path` itself into a file node whose
blob carries `fileName` as its name and `content` as its content (with the
content-type hint defaulting to `"plain/text"`); no child named `fileName`
is created. -/
theorem c5_write_file_memfs (v : Vfs) (path fn ct : String) (hint : Option String)
    (hwf : WellFormed v) (h0 : 0 < v.nodes.length)
    (hgm : get_mount v path = (none, path)) :
    ∃ t v1, write_file v path fn ct hint = (JsRet.node t, v1, []) ∧
      openPath v1 path = some t ∧
      ∃ n, getIdx v1.nodes t = some n ∧
        alLookup "type" n.metadata = some (MetaVal.vstr "file") ∧
        alLookup "blob" n.metadata = some (MetaVal.vblob fn ct (ctypeOf hint)) := by
  have heq := write_file_memfs_eq fn ct hint hgm
  obtain ⟨hop, hlt⟩ := _push_establishes (normalize_path path)
    [("type", MetaVal.vstr "file"), ("blob", MetaVal.vblob fn ct (ctypeOf hint))] hwf h0
  obtain ⟨n0, hn0, hn0'⟩ := _push_terminal (normalize_path path)
    [("type", MetaVal.vstr "file"), ("blob", MetaVal.vblob fn ct (ctypeOf hint))] hwf h0
  refine ⟨_, _, heq, ?_, ?_⟩
  · show _open _ (some 0) (normalize_path path) = _
    exact hop
  · refine ⟨_, hn0', ?_, ?_⟩
    · show alLookup "type"
        (objAssign (objAssign n0.metadata [("type", MetaVal.vstr "file")])
          [("type", MetaVal.vstr "file"), ("blob", MetaVal.vblob fn ct (ctypeOf hint))]) =
        some (MetaVal.vstr "file")
      apply alLookup_objAssign_last
      · simp
      · rw [alLookup, if_pos rfl]
    · show alLookup "blob"
        (objAssign (objAssign n0.metadata [("type", MetaVal.vstr "file")])
          [("type", MetaVal.vstr "file"), ("blob", MetaVal.vblob fn ct (ctypeOf hint))]) =
        some (MetaVal.vblob fn ct (ctypeOf hint))
      apply alLookup_objAssign_last
      · simp
      · rw [alLookup, if_neg (by decide), alLookup, if_pos rfl]

/-- C5 witness: the amended statement evaluated at `write_file("/a",
"note.txt", "hello")` on a fresh instance. -/
theorem c5_witness :
    ∃ t v1, write_file initVfs "/a" "note.txt" "hello" none = (JsRet.node t, v1, []) ∧
      openPath v1 "/a" = some t ∧
      ∃ n, getIdx v1.nodes t = some n ∧
        alLookup "type" n.metadata = some (MetaVal.vstr "file") ∧
        alLookup "blob" n.metadata =
          some (MetaVal.vblob "note.txt" "hello" (ctypeOf none)) :=
  c5_write_file_memfs initVfs "/a" "note.txt" "hello" none (by decide) (by decide) (by decide)

/-- C4 counterexample: pushing `/a` with `{type: "folder"}` and then
re-pushing it with `{blob: ...}` flips the existing `type` key from
`"folder"` to `"file"` even though `type` is not among the later metadata's
keys — the forced `{type: "file"}` in the merge overwrites an existing key
that the later metadata does not name, so "other existing keys are
retained" is false as stated. -/
theorem c4_counterexample :
    (getIdx (_push initVfs 0 ["a"] [("type", MetaVal.vstr "folder")]).1.nodes 1).map
      (fun n => alLookup "type" n.metadata) = some (some (MetaVal.vstr "folder")) ∧
    (getIdx (_push (_push initVfs 0 ["a"] [("type", MetaVal.vstr "folder")]).1 0 ["a"]
        [("blob", MetaVal.vblob "b" "c" "d")]).1.nodes 1).map
      (fun n => alLookup "type" n.metadata) = some (some (MetaVal.vstr "file")) ∧
    alLookup "type" [("blob", MetaVal.vblob "b" "c" "d")] = none ∧
    (_push (_push initVfs 0 ["a"] [("type", MetaVal.vstr "folder")]).1 0 ["a"]
        [("blob", MetaVal.vblob "b" "c" "d")]).2 =
      (_push initVfs 0 ["a"] [("type", MetaVal.vstr "folder")]).2 ∧
    (MetaVal.vstr "file") ≠ (MetaVal.vstr "folder") := by
  decide

/-- C4 amended: `push` is idempotent on structure — for every valid root
and path, pushing the same path twice yields the same single terminal node
and the second push's only mutation is the terminal's metadata merge, in
which later metadata keys overwrite identically-named keys, the `type` key
is reset to `"file"` unless the later metadata overrides it, and all other
existing keys are retained. -/
theorem c4_push_idempotent (v : Vfs) (m : Nat) (segs : List String) (md1 md2 : Metadata)
    (hwf : WellFormed v) (hm : m < v.nodes.length)
    (hnd : (md2.map Prod.fst).Nodup) :
    (_push (_push v m segs md1).1 m segs md2).2 = (_push v m segs md1).2 ∧
    (_push (_push v m segs md1).1 m segs md2).1.nodes.length =
      (_push v m segs md1).1.nodes.length ∧
    (_push (_push v m segs md1).1 m segs md2).1.node_id = (_push v m segs md1).1.node_id ∧
    (_push (_push v m segs md1).1 m segs md2).1.mount_points =
      (_push v m segs md1).1.mount_points ∧
    (∀ i, i ≠ (_push v m segs md1).2 →
      getIdx (_push (_push v m segs md1).1 m segs md2).1.nodes i =
        getIdx (_push v m segs md1).1.nodes i) ∧
    (∃ n1, getIdx (_push v m segs md1).1.nodes (_push v m segs md1).2 = some n1 ∧
      getIdx (_push (_push v m segs md1).1 m segs md2).1.nodes (_push v m segs md1).2 =
        some { n1 with metadata := objAssign (objAssign n1.metadata [("type", MetaVal.vstr "file")]) md2 } ∧
      (∀ k val, alLookup k md2 = some val →
        alLookup k (objAssign (objAssign n1.metadata [("type", MetaVal.vstr "file")]) md2) =
          some val) ∧
      (∀ k, alLookup k md2 = none → k ≠ "type" →
        alLookup k (objAssign (objAssign n1.metadata [("type", MetaVal.vstr "file")]) md2) =
          alLookup k n1.metadata) ∧
      (alLookup "type" md2 = none →
        alLookup "type" (objAssign (objAssign n1.metadata [("type", MetaVal.vstr "file")]) md2) =
          some (MetaVal.vstr "file"))) := by
  obtain ⟨hop, hlt⟩ := _push_establishes segs md1 hwf hm
  have hpure : pushWalk (_push v m segs md1).1 m segs = ((_push v m segs md1).1, (_push v m segs md1).2) :=
    pushWalk_pure hop
  have hunf : _push (_push v m segs md1).1 m segs md2 =
      (modifyNode (pushWalk (_push v m segs md1).1 m segs).1
        (pushWalk (_push v m segs md1).1 m segs).2
        (fun n => { n with metadata := objAssign (objAssign n.metadata [("type", MetaVal.vstr "file")]) md2 }),
        (pushWalk (_push v m segs md1).1 m segs).2) := rfl
  have hsecond : _push (_push v m segs md1).1 m segs md2 =
      (modifyNode (_push v m segs md1).1 (_push v m segs md1).2
        (fun n => { n with metadata := objAssign (objAssign n.metadata [("type", MetaVal.vstr "file")]) md2 }),
        (_push v m segs md1).2) := by
    rw [hunf, hpure]
  obtain ⟨n1, hn1⟩ := getIdx_isSome_of_lt hlt
  refine ⟨by rw [hsecond], ?_, ?_, ?_, ?_, ?_⟩
  · rw [hsecond]
    exact modifyNode_length _ _ _
  · rw [hsecond]
    exact modifyNode_node_id _ _ _
  · rw [hsecond]
    exact modifyNode_mount_points _ _ _
  · intro i hi
    rw [hsecond]
    exact getIdx_modifyNode_ne _ hi
  · refine ⟨n1, hn1, ?_, ?_, ?_, ?_⟩
    · rw [hsecond]
      exact getIdx_modifyNode_eq _ hn1
    · intro k val hk
      exact alLookup_objAssign_last _ hnd hk
    · intro k hk hkt
      rw [alLookup_objAssign_no_id _ _ _ hk, alLookup_objAssign_no_id]
      rw [alLookup, if_neg (fun hh => hkt hh.symm), alLookup]
    · intro hk
      rw [alLookup_objAssign_no_id _ _ _ hk]
      apply alLookup_objAssign_last
      · simp
      · rw [alLookup, if_pos rfl]

/-- C4 witness: the amended idempotence applied at a fresh instance,
pushing `["a"]` with folder metadata then with blob metadata. -/
theorem c4_witness :
    (_push (_push initVfs 0 ["a"] [("type", MetaVal.vstr "folder")]).1 0 ["a"]
        [("blob", MetaVal.vblob "b" "c" "d")]).2 =
      (_push initVfs 0 ["a"] [("type", MetaVal.vstr "folder")]).2 ∧
    (_push (_push initVfs 0 ["a"] [("type", MetaVal.vstr "folder")]).1 0 ["a"]
        [("blob", MetaVal.vblob "b" "c" "d")]).1.nodes.length =
      (_push initVfs 0 ["a"] [("type", MetaVal.vstr "folder")]).1.nodes.length :=
  ⟨(c4_push_idempotent initVfs 0 ["a"] [("type", MetaVal.vstr "folder")]
      [("blob", MetaVal.vblob "b" "c" "d")] (by decide) (by decide) (by decide)).1,
    (c4_push_idempotent initVfs 0 ["a"] [("type", MetaVal.vstr "folder")]
      [("blob", MetaVal.vblob "b" "c" "d")] (by decide) (by decide) (by decide)).2.1⟩

/-- C2: for a `mkdir` or `write_file` under a local mount in which no node
on the walk from the mount root toward the target (the mount root itself
and every resolvable prefix, up to and including the target) carries a
`directoryHandle`, the operation returns the null failure signal, issues no
provider call, and leaves the whole state (in particular the tree under
that path) unmodified. -/
theorem c2_local_no_handle_fails (env : Nat → String → Nat) (v : Vfs)
    (path fn ct : String) (hint : Option String) (mp : MountPoint) (rest : String)
    (hgm : get_mount v path = (some mp, rest))
    (hty : mp.mtype = "local")
    (hnh : ∀ k, k ≤ (normalize_path rest).length →
      noHandleB v mp.root ((normalize_path rest).take k) = true) :
    mkdir env v path = (JsRet.nullv, v, []) ∧
      write_file v path fn ct hint = (JsRet.nullv, v, []) := by
  have hcl : _closest_directory_handler_local v mp.root rest = none := by
    unfold _closest_directory_handler_local
    exact closestAux_none hnh
  constructor
  · rw [mkdir_local_eq env hgm hty, _mkdir_local_notfound hcl]
  · rw [write_file_local_eq fn ct hint hgm hty, _write_file_local_notfound hcl]

theorem getHandleAt_some {v : Vfs} {i h : Nat} (hg : getHandleAt v i = some h) :
    ∃ n, getIdx v.nodes i = some n ∧
      alLookup "directoryHandle" n.metadata = some (MetaVal.vhandle h) := by
  unfold getHandleAt getNode? at hg
  cases hx : getIdx v.nodes i with
  | none => rw [hx] at hg; exact Option.noConfusion hg
  | some n =>
    rw [hx] at hg
    have hg' : (match alLookup "directoryHandle" n.metadata with
      | some (MetaVal.vhandle hh) => some hh
      | _ => none) = some h := hg
    cases hl : alLookup "directoryHandle" n.metadata with
    | none => rw [hl] at hg'; exact Option.noConfusion hg'
    | some mv =>
      rw [hl] at hg'
      cases mv with
      | vnat k => exact Option.noConfusion hg'
      | vstr s => exact Option.noConfusion hg'
      | vblob a b c => exact Option.noConfusion hg'
      | vhandle hh =>
        have : hh = h := Option.some.inj hg'
        exact ⟨n, rfl, by rw [hl, this]⟩

theorem closest_sound {v : Vfs} {mount : Option Nat} {path : String} {hdl node : Nat}
    {tc : List String}
    (hcl : _closest_directory_handler_local v mount path = some (hdl, node, tc)) :
    ∃ nn, getIdx v.nodes node = some nn ∧
      alLookup "directoryHandle" nn.metadata = some (MetaVal.vhandle hdl) ∧
      node < v.nodes.length := by
  have hcl' : closestAux v mount (normalize_path path) (normalize_path path).length =
      some (hdl, node, tc) := hcl
  obtain ⟨k, _, _, hh, _⟩ := closestAux_sound hcl'
  obtain ⟨nn, hnn, hnh⟩ := getHandleAt_some hh
  exact ⟨nn, hnn, hnh, getIdx_lt hnn⟩

/-- C2 witness: `mount_local_file` at the root registers a mount `/f.txt`
whose root (a file node) never receives a handle; a `mkdir` and a
`write_file` under `/f.txt/sub` both fail with null and leave the state
untouched. -/
theorem c2_witness :
    mkdir envA vFileMount "/f.txt/sub" = (JsRet.nullv, vFileMount, []) ∧
      write_file vFileMount "/f.txt/sub" "a" "b" none = (JsRet.nullv, vFileMount, []) :=
  c2_local_no_handle_fails envA vFileMount "/f.txt/sub" "a" "b" none
    { mtype := "local", path := "/f.txt", root := some 1 } "/sub"
    (by decide) rfl (by decide)

/-- C6: for every `write_file` under an established local mount whose
closest-handle search succeeds, the missing segments are mirrored into the
Tree ending in a file-typed Node, but no provider call of any kind — in
particular no file-content write — is issued (empty call trace), and no
`directoryHandle` metadata changes: handles of pre-existing nodes are
untouched and newly created nodes carry none.  The mount table is also
unchanged. -/
theorem c6_write_local_tree_only (v : Vfs) (path fn ct : String) (hint : Option String)
    (mp : MountPoint) (rest : String) (hdl node : Nat) (tc : List String)
    (hwf : WellFormed v)
    (hgm : get_mount v path = (some mp, rest))
    (hty : mp.mtype = "local")
    (hcl : _closest_directory_handler_local v mp.root rest = some (hdl, node, tc)) :
    ∃ v1, write_file v path fn ct hint = (JsRet.undef, v1, []) ∧
      (∃ t n, openWalk v1 node tc = some t ∧ getIdx v1.nodes t = some n ∧
        alLookup "type" n.metadata = some (MetaVal.vstr "file")) ∧
      (∀ i n n', getIdx v.nodes i = some n → getIdx v1.nodes i = some n' →
        alLookup "directoryHandle" n'.metadata = alLookup "directoryHandle" n.metadata) ∧
      (∀ i n', v.nodes.length ≤ i → getIdx v1.nodes i = some n' →
        alLookup "directoryHandle" n'.metadata = none) ∧
      v1.mount_points = v.mount_points := by
  obtain ⟨nn, hnn, hnh, hlt⟩ := closest_sound hcl
  have heq := write_file_local_eq fn ct hint hgm hty
  rw [_write_file_local_found hcl] at heq
  refine ⟨(_push v node tc [("type", MetaVal.vstr "file")]).1, heq, ?_, ?_, ?_, ?_⟩
  · obtain ⟨hop, hlt2⟩ := _push_establishes tc [("type", MetaVal.vstr "file")] hwf hlt
    obtain ⟨n0, hn0, hn0'⟩ := _push_terminal tc [("type", MetaVal.vstr "file")] hwf hlt
    refine ⟨_, _, hop, hn0', ?_⟩
    show alLookup "type" (objAssign (objAssign n0.metadata [("type", MetaVal.vstr "file")])
      [("type", MetaVal.vstr "file")]) = some (MetaVal.vstr "file")
    apply alLookup_objAssign_last _ (by simp)
    rw [alLookup, if_pos rfl]
  · intro i n n' hn hn'
    exact _push_handle_frame_old hwf hlt (by simp [alLookup]) hn hn'
  · intro i n' hle hn'
    exact _push_handle_frame_new hwf hlt (by simp [alLookup]) hle hn'
  · exact _push_mount_points v node tc [("type", MetaVal.vstr "file")]

/-- C6 witness: writing `a.txt` under `/proj/sub` on the mounted state
(`/proj` carries handle 7). -/
theorem c6_witness :
    ∃ v1, write_file vMounted "/proj/sub" "a.txt" "hi" none = (JsRet.undef, v1, []) ∧
      (∃ t n, openWalk v1 1 ["sub"] = some t ∧ getIdx v1.nodes t = some n ∧
        alLookup "type" n.metadata = some (MetaVal.vstr "file")) ∧
      (∀ i n n', getIdx vMounted.nodes i = some n → getIdx v1.nodes i = some n' →
        alLookup "directoryHandle" n'.metadata = alLookup "directoryHandle" n.metadata) ∧
      (∀ i n', vMounted.nodes.length ≤ i → getIdx v1.nodes i = some n' →
        alLookup "directoryHandle" n'.metadata = none) ∧
      v1.mount_points = vMounted.mount_points :=
  c6_write_local_tree_only vMounted "/proj/sub" "a.txt" "hi" none
    { mtype := "local", path := "/proj", root := some 1 } "/sub" 7 1 ["sub"]
    (by decide) (by decide) rfl (by decide)

/-- C9 counterexample: on the mounted state, a `write_file` under the local
mount that succeeds (the closest-handle search finds `/proj`'s handle and
the node `/proj/sub` is created, index 3) returns `undefined`, not the
resulting Node — `_write_file_local` has no return statement on its success
path. -/
theorem c9_counterexample :
    (write_file vMounted "/proj/sub" "a.txt" "hi" none).1 = JsRet.undef ∧
    openPath (write_file vMounted "/proj/sub" "a.txt" "hi" none).2.1 "/proj/sub" = some 3 ∧
    JsRet.undef ≠ JsRet.node 3 := by
  decide

/-- C9 amended: `write_file` returns the created Node for writes outside
any mount, the null failure signal for a local-mount write with no writable
ancestor handle, and `undefined` (no Node) for a local-mount write that
succeeds — the terminal Node is created in the Tree but never returned. -/
theorem c9_write_file_returns (v : Vfs) (path fn ct : String) (hint : Option String) :
    (∀ rest, get_mount v path = (none, rest) →
      ∃ i v1, write_file v path fn ct hint = (JsRet.node i, v1, [])) ∧
    (∀ mp rest, get_mount v path = (some mp, rest) → mp.mtype = "local" →
      _closest_directory_handler_local v mp.root rest = none →
      write_file v path fn ct hint = (JsRet.nullv, v, [])) ∧
    (∀ mp rest hdl node tc, get_mount v path = (some mp, rest) → mp.mtype = "local" →
      _closest_directory_handler_local v mp.root rest = some (hdl, node, tc) →
      ∃ v1, write_file v path fn ct hint = (JsRet.undef, v1, [])) := by
  refine ⟨?_, ?_, ?_⟩
  · intro rest hgm
    exact ⟨_, _, write_file_memfs_eq fn ct hint hgm⟩
  · intro mp rest hgm hty hcl
    rw [write_file_local_eq fn ct hint hgm hty, _write_file_local_notfound hcl]
  · intro mp rest hdl node tc hgm hty hcl
    rw [write_file_local_eq fn ct hint hgm hty, _write_file_local_found hcl]
    exact ⟨_, rfl⟩

/-- C9 witness: the successful-local-write case applied on the mounted
state returns `undefined`. -/
theorem c9_witness :
    ∃ v1, write_file vMounted "/proj/sub" "a.txt" "hi" none = (JsRet.undef, v1, []) :=
  (c9_write_file_returns vMounted "/proj/sub" "a.txt" "hi" none).2.2
    { mtype := "local", path := "/proj", root := some 1 } "/sub" 7 1 ["sub"]
    (by decide) rfl (by decide)

/-- C7: node ids are globally unique and strictly increasing across the
lifetime of one Vfs instance — after any sequence of public operations,
any two distinct nodes carry distinct ids, and a node created later (larger
arena index; nodes are only ever appended) carries a strictly greater id. -/
theorem c7_ids_unique_increasing (ops : List Op) (i j : Nat)
    (hij : i ≠ j) (hi : i < (runOps ops).nodes.length)
    (hj : j < (runOps ops).nodes.length) :
    ∃ ni nj a b, getIdx (runOps ops).nodes i = some ni ∧
      getIdx (runOps ops).nodes j = some nj ∧
      alLookup "id" ni.metadata = some (MetaVal.vnat a) ∧
      alLookup "id" nj.metadata = some (MetaVal.vnat b) ∧
      a ≠ b ∧ (i < j → a < b) := by
  obtain ⟨ni, hni⟩ := getIdx_isSome_of_lt hi
  obtain ⟨nj, hnj⟩ := getIdx_isSome_of_lt hj
  have hg := goodIds_runOps ops
  exact ⟨ni, nj, i, j, hni, hnj, hg.2 i ni hni, hg.2 j nj hnj, hij, fun h => h⟩

/-- C7 witness: after one `mkdir("/a/b")` on a fresh instance, nodes 0 and
2 carry distinct, ordered ids. -/
theorem c7_witness :
    ∃ ni nj a b, getIdx (runOps [Op.mkdirOp envA "/a/b"]).nodes 0 = some ni ∧
      getIdx (runOps [Op.mkdirOp envA "/a/b"]).nodes 2 = some nj ∧
      alLookup "id" ni.metadata = some (MetaVal.vnat a) ∧
      alLookup "id" nj.metadata = some (MetaVal.vnat b) ∧
      a ≠ b ∧ (0 < 2 → a < b) :=
  c7_ids_unique_increasing [Op.mkdirOp envA "/a/b"] 0 2 (by decide) (by decide) (by decide)

/-- C1: for every `mkdir` under an established local mount whose
closest-handle search succeeds with handle `hdl` at node `ni` and missing
segments `tc`, the missing segments are mirrored into the Tree as folder
Nodes (every node new to the arena is folder-typed), the provider-call
trace is exactly one create-if-absent directory-handle request per missing
segment in order from shallowest to deepest, each request's parent handle
being the previously created handle (`chainCalls`), the returned handle is
attached to the corresponding Tree Node (`chainHandles` against the chain
of nodes `L` along `tc`), and the returned value is the terminal Node,
which carries the last created directory handle. -/
theorem c1_mkdir_local_materializes (env : Nat → String → Nat) (v : Vfs) (path : String)
    (mp : MountPoint) (rest : String) (hdl ni : Nat) (tc : List String)
    (hwf : WellFormed v)
    (hgm : get_mount v path = (some mp, rest))
    (hty : mp.mtype = "local")
    (hcl : _closest_directory_handler_local v mp.root rest = some (hdl, ni, tc)) :
    ∃ t v2 L,
      mkdir env v path = (JsRet.node t, v2, chainCalls env hdl tc) ∧
      chainNodes v2 ni tc = some L ∧
      L.length = tc.length ∧
      openWalk v2 ni tc = some t ∧
      (∀ k j hv, getIdx L k = some j → getIdx (chainHandles env hdl tc) k = some hv →
        ∃ n, getIdx v2.nodes j = some n ∧
          alLookup "directoryHandle" n.metadata = some (MetaVal.vhandle hv)) ∧
      (∀ i n, v.nodes.length ≤ i → getIdx v2.nodes i = some n →
        alLookup "type" n.metadata = some (MetaVal.vstr "folder")) ∧
      (∃ n, getIdx v2.nodes t = some n ∧
        alLookup "directoryHandle" n.metadata =
          some (MetaVal.vhandle (List.foldl env hdl tc))) := by
  obtain ⟨nn, hnn, hnh, hlt⟩ := closest_sound hcl
  have hwfp := _push_wf tc [("type", MetaVal.vstr "folder")] hwf hlt
  obtain ⟨hop, hltp⟩ := _push_establishes tc [("type", MetaVal.vstr "folder")] hwf hlt
  -- the handle found by the search survives the tree push
  have hhp : ∃ n2, getIdx (_push v ni tc [("type", MetaVal.vstr "folder")]).1.nodes ni = some n2 ∧
      alLookup "directoryHandle" n2.metadata = some (MetaVal.vhandle hdl) := by
    obtain ⟨nw, hnw, _, _, hwmd, _, _⟩ := (pushWalk_extends v ni tc).2 ni nn hnn
    by_cases hit : ni = (_push v ni tc [("type", MetaVal.vstr "folder")]).2
    · obtain ⟨n0, hn0, hn0'⟩ := _push_terminal tc [("type", MetaVal.vstr "folder")] hwf hlt
      rw [← hit] at hn0'
      have hn0w : nw = n0 := by
        rw [← hit] at hn0
        rw [hnw] at hn0
        exact Option.some.inj hn0
      refine ⟨_, hn0', ?_⟩
      show alLookup "directoryHandle"
        (objAssign (objAssign n0.metadata [("type", MetaVal.vstr "file")])
          [("type", MetaVal.vstr "folder")]) = some (MetaVal.vhandle hdl)
      rw [handle_objAssign _ _ (by simp [alLookup]), ← hn0w, hwmd]
      exact hnh
    · refine ⟨nw, ?_, by rw [hwmd]; exact hnh⟩
      rw [_push_other tc [("type", MetaVal.vstr "folder")] hit]
      exact hnw
  have hni_lt_p : ni < (_push v ni tc [("type", MetaVal.vstr "folder")]).1.nodes.length := by
    rw [_push_nodes_length]
    exact Nat.lt_of_lt_of_le hlt (pushWalk_extends v ni tc).1
  obtain ⟨L, hL, hLlen, hLlast⟩ := chainNodes_of_openWalk hop
  obtain ⟨t, v2, hrun, hlast2, hlen2, hid2, hm2, hchild2, hframe2, hattach2, hterm2⟩ :=
    attachLoop_spec env hwfp hni_lt_p hL hhp
  have htp_eq : t = (_push v ni tc [("type", MetaVal.vstr "folder")]).2 := by
    rw [hLlast] at hlast2
    exact (Option.some.inj hlast2).symm
  -- every node of the post-push state beyond the original arena is a folder
  have hvp_type : ∀ i n, v.nodes.length ≤ i →
      getIdx (_push v ni tc [("type", MetaVal.vstr "folder")]).1.nodes i = some n →
      alLookup "type" n.metadata = some (MetaVal.vstr "folder") := by
    intro i n hle hin
    by_cases hit : i = (_push v ni tc [("type", MetaVal.vstr "folder")]).2
    · obtain ⟨n0, hn0, hn0'⟩ := _push_terminal tc [("type", MetaVal.vstr "folder")] hwf hlt
      rw [hit, hn0'] at hin
      rw [← Option.some.inj hin]
      show alLookup "type"
        (objAssign (objAssign n0.metadata [("type", MetaVal.vstr "file")])
          [("type", MetaVal.vstr "folder")]) = some (MetaVal.vstr "folder")
      apply alLookup_objAssign_last _ (by simp)
      rw [alLookup, if_pos rfl]
    · rw [_push_other tc [("type", MetaVal.vstr "folder")] hit] at hin
      obtain ⟨k0, hk0⟩ := pushWalk_new v ni tc i n hle hin
      rw [hk0, alLookup, if_neg (by decide), alLookup, if_pos rfl]
  refine ⟨t, v2, L, ?_, ?_, hLlen, ?_, ?_, ?_, ?_⟩
  · rw [mkdir_local_eq env hgm hty, _mkdir_local_found hcl]
    exact hrun
  · rw [chainNodes_congr hchild2]
    exact hL
  · rw [openWalk_congr hchild2, htp_eq]
    exact hop
  · intro k j hv hLk hHk
    obtain ⟨n0, n1, hm0, hm1, hmm⟩ := hattach2 k j hv hLk hHk
    refine ⟨n1, hm1, ?_⟩
    rw [hmm]
    exact alLookup_setKey_self _ _ _
  · intro i n hle hin
    by_cases hiL : i ∈ L
    · obtain ⟨k, hk⟩ := getIdx_of_mem hiL
      have hkl : k < L.length := getIdx_lt hk
      have hkh : k < (chainHandles env hdl tc).length := by
        rw [chainHandles_length, ← hLlen]
        exact hkl
      obtain ⟨hv, hhv⟩ := getIdx_isSome_of_lt hkh
      obtain ⟨n0, n1, hm0, hm1, hmm⟩ := hattach2 k i hv hk hhv
      have hne : n = n1 := by
        rw [hm1] at hin
        exact (Option.some.inj hin).symm
      rw [hne, hmm, alLookup_setKey_ne _ _ (by decide)]
      exact hvp_type i n0 hle hm0
    · rw [hframe2 i hiL] at hin
      exact hvp_type i n hle hin
  · exact hterm2

/-- C1 witness: spec scenario (d) — on the mounted state (`/proj` carries
handle 7 from `mount_local_folder`), `mkdir("/proj/sub/inner")` finds
`/proj`'s handle, creates `sub` then `inner` in that order with
create-if-absent requests, and both become folder Nodes carrying handles;
the terminal Node is returned carrying the last handle. -/
theorem c1_witness :
    ∃ t v2 L,
      mkdir envA vMounted "/proj/sub/inner" =
        (JsRet.node t, v2, chainCalls envA 7 ["sub", "inner"]) ∧
      chainNodes v2 1 ["sub", "inner"] = some L ∧
      L.length = (["sub", "inner"] : List String).length ∧
      openWalk v2 1 ["sub", "inner"] = some t ∧
      (∀ k j hv, getIdx L k = some j →
        getIdx (chainHandles envA 7 ["sub", "inner"]) k = some hv →
        ∃ n, getIdx v2.nodes j = some n ∧
          alLookup "directoryHandle" n.metadata = some (MetaVal.vhandle hv)) ∧
      (∀ i n, vMounted.nodes.length ≤ i → getIdx v2.nodes i = some n →
        alLookup "type" n.metadata = some (MetaVal.vstr "folder")) ∧
      (∃ n, getIdx v2.nodes t = some n ∧
        alLookup "directoryHandle" n.metadata =
          some (MetaVal.vhandle (List.foldl envA 7 ["sub", "inner"]))) :=
  c1_mkdir_local_materializes envA vMounted "/proj/sub/inner"
    { mtype := "local", path := "/proj", root := some 1 } "/sub/inner" 7 1 ["sub", "inner"]
    (by decide) (by decide) rfl (by decide)

end VfsModel
